import Mathlib

/-!
Verification of the entity-resolution and text-normalization pipeline of
verkiezing-vibecheck (src/app/services/polls.py, notubiz.py, pdf.py).

Strings are modelled as `List Char`.  Python `float` results that feed
comparisons are modelled as exact rationals (`ℚ`); the quantities compared
here (difflib ratios against the 0.85 threshold) are ratios of small
integers, for which IEEE double rounding is far below the decision margin.
Python library routines used by the code (difflib.SequenceMatcher,
re search on the fixed patterns, datetime.date validation, round) are
embedded below following the CPython reference implementations.
-/

set_option maxRecDepth 100000

namespace VV

/-- Equality on `Except` results is decidable componentwise (used to
evaluate the embedded parsers on concrete inputs). -/
instance {α β : Type} [DecidableEq α] [DecidableEq β] : DecidableEq (Except α β) :=
  fun x y =>
    match x, y with
    | .error a, .error b =>
      if h : a = b then isTrue (by rw [h]) else isFalse (by intro hc; cases hc; exact h rfl)
    | .ok a, .ok b =>
      if h : a = b then isTrue (by rw [h]) else isFalse (by intro hc; cases hc; exact h rfl)
    | .error _, .ok _ => isFalse (by intro hc; cases hc)
    | .ok _, .error _ => isFalse (by intro hc; cases hc)

/-! ### Python string primitives (ASCII fragment)

The repository feeds ASCII/Latin text into these helpers.  `str.lower`,
`str.strip`, `str.split` and the `\s`, `\d`, `\w` regex classes are
modelled on their ASCII behaviour. -/

/-- Python whitespace (`str.split`, `str.strip`, regex `\s`), ASCII part. -/
def isSpacePy (c : Char) : Bool :=
  c = ' ' || c = '\t' || c = '\n' || c = '\r' || c = '\x0b' || c = '\x0c'

/-- ASCII lowercase conversion (Python `str.lower` on ASCII input). -/
def lowerChar (c : Char) : Char :=
  if 'A' ≤ c ∧ c ≤ 'Z' then Char.ofNat (c.toNat + 32) else c

def pyLower (s : List Char) : List Char := s.map lowerChar

/-- Python `str.strip()`: drop leading and trailing whitespace. -/
def pyStrip (s : List Char) : List Char :=
  ((s.dropWhile isSpacePy).reverse.dropWhile isSpacePy).reverse

/-- Helper for `pySplit`: `acc` is the current word, reversed. -/
def pySplitGo : List Char → List Char → List (List Char)
  | [], acc => if acc.isEmpty then [] else [acc.reverse]
  | c :: t, acc =>
    if isSpacePy c then
      (if acc.isEmpty then pySplitGo t [] else acc.reverse :: pySplitGo t [])
    else pySplitGo t (c :: acc)

/-- Python `str.split()` with no argument: split on whitespace runs,
discarding empty fields. -/
def pySplit (s : List Char) : List (List Char) := pySplitGo s []

/-- `" ".join(parts)`. -/
def joinSpace : List (List Char) → List Char
  | [] => []
  | [w] => w
  | w :: ws => w ++ ' ' :: joinSpace ws

/-- `sep.join(parts)` for a general separator. -/
def joinSep (sep : List Char) : List (List Char) → List Char
  | [] => []
  | [w] => w
  | w :: ws => w ++ sep ++ joinSep sep ws

def isDigitPy (c : Char) : Bool := '0' ≤ c && c ≤ '9'

/-- Numeric value of a (non-empty, all-digit) decimal string, as `int()`
computes it on such input. -/
def digitsToNat (s : List Char) : Nat :=
  s.foldl (fun acc c => acc * 10 + (c.toNat - '0'.toNat)) 0

/-! ### difflib.SequenceMatcher (CPython), with `isjunk = None`

`ratio()` is `2 * M / (len(a) + len(b))` where `M` is the total size of the
matching blocks found by the recursive `find_longest_match` sweep.  The
`b2j` index drops "popular" elements when `len(b) >= 200` (autojunk); the
junk set itself is empty, so the junk-only extension loops of
`find_longest_match` are no-ops and are omitted. -/

/-- The autojunk "popular" test: in a sequence of length ≥ 200, an element
occurring more than `len(b) // 100 + 1` times is dropped from the index. -/
abbrev popC (b : List Char) (c : Char) : Prop :=
  200 ≤ b.length ∧ b.length / 100 + 1 < b.count c

/-- Occurrence list (ascending) of `c` in `b`, with autojunk. -/
def b2j (b : List Char) (c : Char) : List Nat :=
  if popC b c then []
  else (List.range b.length).filter (fun j => b.get? j = some c)

/-- Loop state of `find_longest_match`: the previous row's `j2len` table
(total function, absent keys map to 0) and the best block so far. -/
structure FLState where
  j2len : Nat → Nat
  besti : Nat
  bestj : Nat
  bestsize : Nat

/-- Accumulator while sweeping one row `i`: the row's `newj2len` plus the
running best block. -/
structure RowAcc where
  nj : Nat → Nat
  bi : Nat
  bj : Nat
  bs : Nat

/-- `k = j2len.get(j-1, 0) + 1` of the inner loop (`j2len` has no negative
keys, so `j = 0` reads the default 0). -/
def kOf (old : Nat → Nat) (j : Nat) : Nat :=
  (match j with | 0 => 0 | Nat.succ j' => old j') + 1

/-- One `j` step of the inner loop: `k = newj2len[j] = j2len.get(j-1, 0) + 1`,
updating the best block when `k > bestsize`. -/
def rowStep (old : Nat → Nat) (i : Nat) (acc : RowAcc) (j : Nat) : RowAcc :=
  let k := kOf old j
  let nj' := fun x => if x = j then k else acc.nj x
  if acc.bs < k then ⟨nj', i + 1 - k, j + 1 - k, k⟩ else ⟨nj', acc.bi, acc.bj, acc.bs⟩

/-- Candidate columns for row `i`: `b2j[a[i]]` restricted to `[blo, bhi)`
(the `continue`/`break` guards on the ascending occurrence list). -/
def jsRow (a b : List Char) (blo bhi i : Nat) : List Nat :=
  (b2j b (a.getD i ' ')).filter (fun j => blo ≤ j && j < bhi)

/-- One row of the `find_longest_match` sweep. -/
def flmRow (a b : List Char) (blo bhi : Nat) (st : FLState) (i : Nat) : FLState :=
  let r := (jsRow a b blo bhi i).foldl (rowStep st.j2len i)
    ⟨fun _ => 0, st.besti, st.bestj, st.bestsize⟩
  ⟨r.nj, r.bi, r.bj, r.bs⟩

/-- Backward extension of the best block over equal elements
(the junk set is empty, so the `not isbjunk` guard always holds).
The `while besti > alo` loop is structural recursion on `besti`. -/
def extendBack (a b : List Char) (alo blo : Nat) : Nat → Nat → Nat → Nat × Nat × Nat
  | 0, bj, bs => (0, bj, bs)
  | bi + 1, bj, bs =>
    if alo < bi + 1 ∧ blo < bj ∧ a.getD (bi + 1 - 1) ' ' = b.getD (bj - 1) ' ' then
      extendBack a b alo blo bi (bj - 1) (bs + 1)
    else (bi + 1, bj, bs)

/-- Forward-extension loop body; `fuel = ahi - (bi + bs)` exactly counts
the remaining room, so the 0 case coincides with a failed guard. -/
def extendFwdGo (a b : List Char) (ahi bhi bi bj : Nat) : Nat → Nat → Nat
  | 0, bs => bs
  | fuel + 1, bs =>
    if bi + bs < ahi ∧ bj + bs < bhi ∧ a.getD (bi + bs) ' ' = b.getD (bj + bs) ' ' then
      extendFwdGo a b ahi bhi bi bj fuel (bs + 1)
    else bs

/-- Forward extension of the best block over equal elements. -/
def extendFwd (a b : List Char) (ahi bhi : Nat) (bi bj : Nat) (bs : Nat) : Nat :=
  extendFwdGo a b ahi bhi bi bj (ahi - (bi + bs)) bs

/-- `SequenceMatcher.find_longest_match(alo, ahi, blo, bhi)`. -/
def findLongestMatch (a b : List Char) (alo ahi blo bhi : Nat) : Nat × Nat × Nat :=
  let st := (List.range' alo (ahi - alo)).foldl (flmRow a b blo bhi) ⟨fun _ => 0, alo, blo, 0⟩
  let t := extendBack a b alo blo st.besti st.bestj st.bestsize
  (t.1, t.2.1, extendFwd a b ahi bhi t.1 t.2.1 t.2.2)

/-- Total size of the matching blocks (the quantity summed by `ratio()`),
by the `get_matching_blocks` divide-and-conquer recursion.  `fuel` only
bounds the recursion depth; the top-level call below supplies more than
enough. -/
def matchTotal (a b : List Char) : Nat → Nat → Nat → Nat → Nat → Nat
  | 0, _, _, _, _ => 0
  | Nat.succ fuel, alo, ahi, blo, bhi =>
    let r := findLongestMatch a b alo ahi blo bhi
    if r.2.2 = 0 then 0
    else r.2.2
      + (if alo < r.1 ∧ blo < r.2.1 then matchTotal a b fuel alo r.1 blo r.2.1 else 0)
      + (if r.1 + r.2.2 < ahi ∧ r.2.1 + r.2.2 < bhi then
          matchTotal a b fuel (r.1 + r.2.2) ahi (r.2.1 + r.2.2) bhi else 0)

/-- `SequenceMatcher(None, a, b).ratio()` as an exact rational. -/
def smRatio (a b : List Char) : ℚ :=
  let T := a.length + b.length
  if T = 0 then 1
  else (2 * (matchTotal a b (T + 1) 0 a.length 0 b.length) : ℚ) / T

/-! ### polls.py — name normalization and fuzzy party matching -/

/-- Unicode combining-mark detection (category Mn) on the combining
diacritical marks block, which is where the decompositions below land. -/
def isMn (c : Char) : Bool := 0x300 ≤ c.toNat && c.toNat ≤ 0x36F

/-- `unicodedata.normalize("NFD", ·)`, character-wise, restricted to the
Latin-1 accented letters that occur in Dutch party and person names. ASCII
code points are NFD-invariant per Unicode; remaining code points are left
undecomposed. -/
def nfdChar (c : Char) : List Char :=
  if c = 'á' then ['a', Char.ofNat 0x301]
  else if c = 'à' then ['a', Char.ofNat 0x300]
  else if c = 'é' then ['e', Char.ofNat 0x301]
  else if c = 'è' then ['e', Char.ofNat 0x300]
  else if c = 'ë' then ['e', Char.ofNat 0x308]
  else if c = 'í' then ['i', Char.ofNat 0x301]
  else if c = 'ï' then ['i', Char.ofNat 0x308]
  else if c = 'ó' then ['o', Char.ofNat 0x301]
  else if c = 'ö' then ['o', Char.ofNat 0x308]
  else if c = 'ú' then ['u', Char.ofNat 0x301]
  else if c = 'ü' then ['u', Char.ofNat 0x308]
  else [c]

/-- `_normalize`: NFD-decompose, drop combining marks, lowercase, remove
characters outside `[a-z0-9\s]`, collapse whitespace runs to single
spaces and trim (`" ".join(name.split())`). -/
def normalize (s : List Char) : List Char :=
  let s := s.flatMap nfdChar
  let s := s.filter (fun c => !isMn c)
  let s := pyLower s
  let s := s.filter (fun c => ('a' ≤ c && c ≤ 'z') || ('0' ≤ c && c ≤ '9') || isSpacePy c)
  joinSpace (pySplit s)

/-- `_similarity(a, b) = SequenceMatcher(None, a, b).ratio()`. -/
def similarity (a b : List Char) : ℚ := smRatio a b

/-- A canonical party record `{id, name, abbreviation}` as supplied by the
registry. -/
structure Party where
  id : Int
  name : List Char
  abbreviation : List Char

/-- `match_party_name(raw_name, db_parties)` (polls.py): best fuzzy match
over the normalized name and abbreviation of every party, kept only when
the best score reaches the 0.85 threshold. -/
def match_party_name (raw_name : List Char) (db_parties : List Party) : Option Int :=
  let norm_raw := normalize raw_name
  let r := db_parties.foldl (fun acc party =>
      [party.name, party.abbreviation].foldl (fun (acc : Option Int × ℚ) candidate =>
        let score := similarity norm_raw (normalize candidate)
        if acc.2 < score then (some party.id, score) else acc) acc)
    ((none : Option Int), (0 : ℚ))
  if (17 : ℚ)/20 ≤ r.2 then r.1 else none

/-! ### notubiz.py — exact/alias/substring party matching and surname keys -/

/-- The static `PARTY_ALIASES` table (lowercase Notubiz name ↦ DB
name/abbreviation). -/
def PARTY_ALIASES : List (List Char × List Char) := [
  ("groenlinks".toList, "GroenLinks".toList),
  ("pvda".toList, "PvdA".toList),
  ("partij van de arbeid".toList, "PvdA".toList),
  ("vvd".toList, "VVD".toList),
  ("d66".toList, "D66".toList),
  ("partij voor de dieren".toList, "PvdD".toList),
  ("pvdd".toList, "PvdD".toList),
  ("bij1".toList, "BIJ1".toList),
  ("volt".toList, "VOLT".toList),
  ("cda".toList, "CDA".toList),
  ("sp".toList, "SP".toList),
  ("ja21".toList, "JA21".toList),
  ("denk".toList, "DENK".toList),
  ("forum voor democratie".toList, "FvD".toList),
  ("fvd".toList, "FvD".toList)]

/-- `dict.get` on the alias table. -/
def aliasLookup (k : List Char) : Option (List Char) :=
  (PARTY_ALIASES.find? (fun p => p.1 == k)).map Prod.snd

/-- `match_party(notubiz_name, db_parties)` (notubiz.py): case-insensitive
exact match on name or abbreviation, then alias lookup (every alias target
is a non-empty string, so `if alias_target:` is a presence test), then
bidirectional substring match; `None` otherwise. -/
def match_party (notubiz_name : List Char) (db_parties : List Party) : Option Int :=
  let lower := pyLower (pyStrip notubiz_name)
  match db_parties.findSome? (fun p =>
      if lower = pyLower p.name ∨ lower = pyLower p.abbreviation then some p.id else none) with
  | some i => some i
  | none =>
    let viaAlias := (aliasLookup lower).bind (fun target =>
      db_parties.findSome? (fun p =>
        if pyLower target = pyLower p.name ∨ pyLower target = pyLower p.abbreviation then
          some p.id
        else none))
    match viaAlias with
    | some i => some i
    | none =>
      db_parties.findSome? (fun p =>
        if pyLower p.name <:+: lower ∨ lower <:+: pyLower p.name then some p.id
        else if pyLower p.abbreviation <:+: lower ∨ lower <:+: pyLower p.abbreviation then
          some p.id
        else none)

/-! ### Python `re` on the fixed poll-parsing patterns

A backtracking matcher: a pattern maps an input suffix to the list of
`(captures, rest)` alternatives in the order the `re` engine would try
them; the engine's result is the head.  Greedy quantifiers list longer
matches first, alternations list branches in source order.
`re.search` tries successive start positions and takes the first hit. -/

def P (α : Type) : Type := List Char → List (α × List Char)

def pPure {α : Type} (x : α) : P α := fun s => [(x, s)]

def pBind {α β : Type} (p : P α) (f : α → P β) : P β :=
  fun s => (p s).flatMap (fun r => f r.1 r.2)

instance : Monad P where
  pure := pPure
  bind := pBind

/-- Ordered alternation (`x|y`). -/
def pAlt {α : Type} (p q : P α) : P α := fun s => p s ++ q s

def pFail {α : Type} : P α := fun _ => []

/-- Greedy bounded repetition of a one-character class: `[cls]{lo,hi}`. -/
def pRun (f : Char → Bool) (lo hi : Nat) : P (List Char) := fun s =>
  let run := s.takeWhile f
  let m := min hi run.length
  (List.range (m + 1)).reverse.filterMap (fun t =>
    if lo ≤ t then some (run.take t, s.drop t) else none)

/-- Greedy unbounded repetition of a one-character class: `[cls]{lo,}`. -/
def pRunGE (f : Char → Bool) (lo : Nat) : P (List Char) := fun s =>
  let run := s.takeWhile f
  (List.range (run.length + 1)).reverse.filterMap (fun t =>
    if lo ≤ t then some (run.take t, s.drop t) else none)

/-- Single character from a class. -/
def pCls (f : Char → Bool) : P Char := fun s =>
  match s with
  | c :: t => if f c then [(c, t)] else []
  | [] => []

/-- Case-sensitive literal. -/
def pLit (lit : List Char) : P Unit := fun s =>
  if lit.length ≤ s.length ∧ s.take lit.length = lit then [((), s.drop lit.length)] else []

/-- Case-insensitive literal (the period patterns carry `re.IGNORECASE`). -/
def pLitCI (lit : List Char) : P Unit := fun s =>
  if lit.length ≤ s.length ∧ pyLower (s.take lit.length) = pyLower lit then
    [((), s.drop lit.length)]
  else []

/-- Negative lookahead `(?!p)`. -/
def pNot {α : Type} (p : P α) : P Unit := fun s =>
  if (p s).isEmpty then [((), s)] else []

/-- `re.search`: first start position (leftmost) whose match list is
non-empty; the overall result is that list's head. -/
def reSearch {α : Type} (p : P α) : List Char → Option α
  | [] => ((p []).head?).map Prod.fst
  | s@(_ :: t) =>
    match (p s).head? with
    | some r => some r.1
    | none => reSearch p t

/-! ### polls.py — Dutch date / sample-size parsing -/

/-- `_NL_MONTHS` in its insertion order (the regex alternation order). -/
def NL_MONTHS : List (List Char × Nat) := [
  ("januari".toList, 1), ("februari".toList, 2), ("maart".toList, 3), ("april".toList, 4),
  ("mei".toList, 5), ("juni".toList, 6), ("juli".toList, 7), ("augustus".toList, 8),
  ("september".toList, 9), ("oktober".toList, 10), ("november".toList, 11),
  ("december".toList, 12)]

/-- The month-name alternation `(januari|februari|...)`.  The capture is
the matched text; `_parse_nl_date` immediately lowercases it and looks it
up in `_NL_MONTHS`, which by construction yields the branch's month
number, so the month number is returned directly. -/
def pMonth : P Nat :=
  NL_MONTHS.foldr (fun m acc => pAlt (pBind (pLitCI m.1) (fun _ => pPure m.2)) acc) pFail

def ws1 : P (List Char) := pRunGE isSpacePy 1

def ws0 : P (List Char) := pRunGE isSpacePy 0

/-- The range separator alternation `(?:en|t/m|tot|–|-)` of
`_PERIOD_SAME_YEAR` / `_PERIOD_NO_YEAR`. -/
def pSepAlt : P Unit :=
  pAlt (pLitCI "en".toList) (pAlt (pLitCI "t/m".toList) (pAlt (pLitCI "tot".toList)
    (pAlt (pLitCI "–".toList) (pLitCI "-".toList))))

/-- The `_PERIOD_BOTH_YEARS` separator class `[t/–-]` (IGNORECASE also
admits `T`). -/
def isSepClassChar (c : Char) : Bool :=
  lowerChar c = 't' || c = '/' || c = '–' || c = '-'

/-- `_PERIOD_BOTH_YEARS`: `(\d{1,2})\s+(month)\s+(\d{4})\s*[t/–-]+\s*(\d{1,2})\s+(month)\s+(\d{4})`. -/
def pBothYears : P (Nat × Nat × Nat × Nat × Nat × Nat) := do
  let d1 ← pRun isDigitPy 1 2
  let _ ← ws1
  let m1 ← pMonth
  let _ ← ws1
  let y1 ← pRun isDigitPy 4 4
  let _ ← ws0
  let _ ← pRunGE isSepClassChar 1
  let _ ← ws0
  let d2 ← pRun isDigitPy 1 2
  let _ ← ws1
  let m2 ← pMonth
  let _ ← ws1
  let y2 ← pRun isDigitPy 4 4
  pure (digitsToNat d1, m1, digitsToNat y1, digitsToNat d2, m2, digitsToNat y2)

/-- `_PERIOD_SAME_YEAR`: `(\d{1,2})\s+(month)\s+(?:en|t/m|tot|–|-)\s+(\d{1,2})\s+(month)\s+(\d{4})`. -/
def pSameYear : P (Nat × Nat × Nat × Nat × Nat) := do
  let d1 ← pRun isDigitPy 1 2
  let _ ← ws1
  let m1 ← pMonth
  let _ ← ws1
  let _ ← pSepAlt
  let _ ← ws1
  let d2 ← pRun isDigitPy 1 2
  let _ ← ws1
  let m2 ← pMonth
  let _ ← ws1
  let y ← pRun isDigitPy 4 4
  pure (digitsToNat d1, m1, digitsToNat d2, m2, digitsToNat y)

/-- `_PERIOD_NO_YEAR`: like `_PERIOD_SAME_YEAR` but the second month ends
the match, guarded by the lookahead `(?!\s+\d{4})`. -/
def pNoYear : P (Nat × Nat × Nat × Nat) := do
  let d1 ← pRun isDigitPy 1 2
  let _ ← ws1
  let m1 ← pMonth
  let _ ← ws1
  let _ ← pSepAlt
  let _ ← ws1
  let d2 ← pRun isDigitPy 1 2
  let _ ← ws1
  let m2 ← pMonth
  let _ ← pNot (do
    let _ ← ws1
    let _ ← pRun isDigitPy 4 4
    pPure ())
  pure (digitsToNat d1, m1, digitsToNat d2, m2)

/-- `_DATE_SINGLE`: `(\d{1,2})\s+(month)\s+(\d{4})`. -/
def pDateSingle : P (Nat × Nat × Nat) := do
  let d ← pRun isDigitPy 1 2
  let _ ← ws1
  let m ← pMonth
  let _ ← ws1
  let y ← pRun isDigitPy 4 4
  pure (digitsToNat d, m, digitsToNat y)

/-! ### datetime.date and `_parse_nl_date` -/

structure PyDate where
  year : Nat
  month : Nat
  day : Nat
deriving DecidableEq, Repr

def isLeap (y : Nat) : Bool := y % 4 = 0 && (y % 100 ≠ 0 || y % 400 = 0)

def daysInMonth (y m : Nat) : Nat :=
  if m = 2 then (if isLeap y then 29 else 28)
  else if m = 4 ∨ m = 6 ∨ m = 9 ∨ m = 11 then 30
  else 31

/-- `datetime.date(y, m, d)`: `none` models the `ValueError` raised on a
calendar-invalid triple (year outside 1..9999, bad month, or day outside
the month). -/
def pyDate (y m d : Nat) : Option PyDate :=
  if 1 ≤ y ∧ y ≤ 9999 ∧ 1 ≤ m ∧ m ≤ 12 ∧ 1 ≤ d ∧ d ≤ daysInMonth y m then
    some ⟨y, m, d⟩
  else none

/-- `_parse_nl_date(day, month_str, year)`; the uncaught `ValueError` from
`date()` is `.error ()`. -/
def parse_nl_date (day month year : Nat) : Except Unit PyDate :=
  match pyDate year month day with
  | some d => .ok d
  | none => .error ()

/-- `_extract_field_period(text, fallback_year)`.  `.error ()` models an
exception escaping the function (it has no handler); `fallback_year` is
tested for truthiness (`if m and fallback_year:`), so a 0 year behaves
like `None`. -/
def extract_field_period (text : List Char) (fallback_year : Option Nat) :
    Except Unit (Option PyDate × Option PyDate) :=
  match reSearch pBothYears text with
  | some (d1, m1, y1, d2, m2, y2) =>
    match parse_nl_date d1 m1 y1, parse_nl_date d2 m2 y2 with
    | .ok a, .ok b => .ok (some a, some b)
    | _, _ => .error ()
  | none =>
  match reSearch pSameYear text with
  | some (d1, m1, d2, m2, y) =>
    match parse_nl_date d1 m1 y, parse_nl_date d2 m2 y with
    | .ok a, .ok b => .ok (some a, some b)
    | _, _ => .error ()
  | none =>
  match reSearch pNoYear text, fallback_year with
  | some (d1, m1, d2, m2), some fy =>
    if fy ≠ 0 then
      match parse_nl_date d1 m1 fy, parse_nl_date d2 m2 fy with
      | .ok a, .ok b => .ok (some a, some b)
      | _, _ => .error ()
    else
      match reSearch pDateSingle text with
      | some (d, m, y) =>
        match parse_nl_date d m y with
        | .ok dt => .ok (none, some dt)
        | .error _ => .error ()
      | none => .ok (none, none)
  | _, _ =>
    match reSearch pDateSingle text with
    | some (d, m, y) =>
      match parse_nl_date d m y with
      | .ok dt => .ok (none, some dt)
      | .error _ => .error ()
    | none => .ok (none, none)

/-! ### `_extract_sample_size` -/

/-- Group 1 of `_SAMPLE_SIZE_RE`: `(\d{1,3}[.,]\d{3}|\d{3,})`. -/
def pSampleNum : P (List Char) :=
  pAlt (do
      let a ← pRun isDigitPy 1 3
      let c ← pCls (fun c => c = '.' || c = ',')
      let b ← pRun isDigitPy 3 3
      pure (a ++ c :: b))
    (pRunGE isDigitPy 3)

/-- `_SAMPLE_SIZE_RE` (no IGNORECASE): the number followed by
`\s+(?:respondenten|Amsterdammers|personen)`; the capture is group 1. -/
def pSampleSize : P (List Char) := do
  let g1 ← pSampleNum
  let _ ← ws1
  let _ ← pAlt (pLit "respondenten".toList)
    (pAlt (pLit "Amsterdammers".toList) (pLit "personen".toList))
  pure g1

/-- `int(raw)` on a string: strip whitespace, optional sign, non-empty
digits; `none` models `ValueError`. -/
def pyIntOfString (s : List Char) : Option Int :=
  let s := pyStrip s
  match s with
  | '+' :: t => if !t.isEmpty ∧ t.all isDigitPy then some (digitsToNat t) else none
  | '-' :: t => if !t.isEmpty ∧ t.all isDigitPy then some (-(digitsToNat t : Int)) else none
  | t => if !t.isEmpty ∧ t.all isDigitPy then some (digitsToNat t) else none

/-- `_extract_sample_size(text)`: thousands separators stripped, parsed by
`int` under `try/except ValueError`.  `.error` never occurs; the Except
carrier makes the no-raise contract a statement about this definition. -/
def extract_sample_size (text : List Char) : Except Unit (Option Int) :=
  match reSearch pSampleSize text with
  | some raw =>
    let raw := raw.filter (fun c => c ≠ '.' && c ≠ ',')
    match pyIntOfString raw with
    | some n => .ok (some n)
    | none => .ok none
  | none => .ok none

/-! ### `_parse_results_from_values` -/

/-- The loosely-typed JSON scalars reaching the chart parser.  Floats are
modelled as exact rationals. -/
inductive PyVal where
  | vnone : PyVal
  | vint : Int → PyVal
  | vfloat : ℚ → PyVal
  | vstr : List Char → PyVal
deriving DecidableEq

/-- Python truthiness of the modelled scalars. -/
def truthy : PyVal → Bool
  | .vnone => false
  | .vint n => n ≠ 0
  | .vfloat q => q ≠ 0
  | .vstr s => !s.isEmpty

/-- A chart-row dict. -/
def PyRow : Type := List (List Char × PyVal)

/-- `row.get(k)`: `vnone` for an absent key. -/
def rowGet (r : PyRow) (k : List Char) : PyVal :=
  ((r.find? (fun p => p.1 == k)).map Prod.snd).getD .vnone

/-- Python `or` on scalars: first truthy operand, else the second. -/
def pyOr (a b : PyVal) : PyVal := if truthy a then a else b

/-- `float(str)`: optional surrounding whitespace and sign, digits with an
optional point and an optional decimal exponent; `none` models
`ValueError`.  (Values are exact rationals; IEEE rounding is not
modelled.) -/
def pyFloatOfString (s : List Char) : Option ℚ :=
  let s := pyStrip s
  let core := fun (t : List Char) =>
    let ip := t.takeWhile isDigitPy
    let t1 := t.dropWhile isDigitPy
    let (fp, t2) := match t1 with
      | '.' :: u => (u.takeWhile isDigitPy, u.dropWhile isDigitPy)
      | _ => ([], t1)
    let (ex, t3) : Option Int × List Char := match t2 with
      | 'e' :: u | 'E' :: u =>
        (match u with
         | '+' :: v => if (v.takeWhile isDigitPy).isEmpty then (none, t2) else
             (some (digitsToNat (v.takeWhile isDigitPy) : Int), v.dropWhile isDigitPy)
         | '-' :: v => if (v.takeWhile isDigitPy).isEmpty then (none, t2) else
             (some (-(digitsToNat (v.takeWhile isDigitPy) : Int)), v.dropWhile isDigitPy)
         | v => if (v.takeWhile isDigitPy).isEmpty then (none, t2) else
             (some (digitsToNat (v.takeWhile isDigitPy) : Int), v.dropWhile isDigitPy))
      | _ => (some 0, t2)
    if ip.isEmpty ∧ fp.isEmpty then none
    else match ex, t3 with
      | some e, [] =>
        some (((digitsToNat (ip ++ fp) : ℚ) / (10 : ℚ) ^ fp.length) * (10 : ℚ) ^ e)
      | _, _ => none
  match s with
  | '+' :: t => core t
  | '-' :: t => (core t).map Neg.neg
  | t => core t

/-- `float(x)` on a scalar; `none` models `ValueError`/`TypeError`. -/
def pyFloat : PyVal → Option ℚ
  | .vint n => some n
  | .vfloat q => some q
  | .vstr s => pyFloatOfString s
  | .vnone => none

/-- Python `round()` to an int: round-half-to-even. -/
def pyRound (q : ℚ) : Int :=
  let f := ⌊q⌋
  let r := q - f
  if r < 1/2 then f
  else if 1/2 < r then f + 1
  else if f % 2 = 0 then f else f + 1

/-- `str(x)` on the modelled scalars.  (Python's float repr is
shortest-roundtrip decimal; it is not reached by any claim here, the
party-name values being strings, and is rendered as the rational's
string.) -/
def pyStrOfVal : PyVal → List Char
  | .vstr s => s
  | .vint n => (toString n).toList
  | .vnone => "None".toList
  | .vfloat q => (toString q).toList

structure ResultRow where
  party_name_raw : List Char
  percentage : Option ℚ
  seats : Option Int
deriving DecidableEq

/-- One iteration of the `_parse_results_from_values` loop on a dict row;
`none` means the row is skipped (falsy party name). -/
def parseRow (row : PyRow) : Option ResultRow :=
  let party_name := pyOr (rowGet row "party".toList)
    (pyOr (rowGet row "partij".toList) (rowGet row "naam".toList))
  if !truthy party_name then none
  else
    let pct : Option ℚ :=
      match rowGet row "percentage".toList with
      | .vnone => none
      | v =>
        match pyFloat v with
        | some q => some (q * 100)
        | none => none
    let seats : Option Int :=
      match pyOr (rowGet row "seats".toList) (rowGet row "zetels".toList) with
      | .vnone => none
      | v =>
        match pyFloat v with
        | some q => some (pyRound q)
        | none => none
    some ⟨pyStrOfVal party_name, pct, seats⟩

/-- `_parse_results_from_values(values)`.  A `none` element stands for a
non-dict list element, skipped by the `isinstance(row, dict)` guard. -/
def parse_results_from_values (values : List (Option PyRow)) : List ResultRow :=
  values.filterMap (fun r => r.bind parseRow)

/-- Python `str.isalpha()` (ASCII fragment). -/
def pyIsAlphaStr (s : List Char) : Bool := !s.isEmpty && s.all (fun c => c.isAlpha)

/-- Python `str.isupper()` (ASCII fragment): at least one cased character
and no lowercase cased character. -/
def pyIsUpperStr (s : List Char) : Bool :=
  s.any (fun c => c.isAlpha) && s.all (fun c => !('a' ≤ c && c ≤ 'z'))

/-- Python `ch.isupper()` for a single character (ASCII fragment). -/
def pyIsUpperChar (c : Char) : Bool := 'A' ≤ c && c ≤ 'Z'

/-- `_is_initial(part)`: strip `.`; the rest must be alphabetic, all
uppercase, and at most 3 characters. -/
def is_initial (part : List Char) : Bool :=
  let stripped := part.filter (fun c => c ≠ '.')
  pyIsAlphaStr stripped && pyIsUpperStr stripped && stripped.length ≤ 3

/-- `_extract_last_name(full_name)`: split on whitespace, drop leading
initials, then drop one leading given name when the first remaining token
is capitalized, is not an initial, and is not the only token; join with
single spaces, lowercased. -/
def extract_last_name (full_name : List Char) : List Char :=
  let parts := pySplit (pyStrip full_name)
  let parts := parts.dropWhile is_initial
  let parts :=
    match parts with
    | [] => []
    | p :: rest =>
      if pyIsUpperChar (p.headD ' ') && !is_initial p && !rest.isEmpty then rest
      else p :: rest
  pyLower (joinSpace parts)

/-! ### pdf.py — `clean_text` -/

/-- Python `str.splitlines()` (common line breaks). -/
def splitlinesGo : List Char → List Char → List (List Char)
  | [], acc => if acc.isEmpty then [] else [acc.reverse]
  | '\r' :: '\n' :: t, acc => acc.reverse :: splitlinesGo t []
  | '\n' :: t, acc => acc.reverse :: splitlinesGo t []
  | '\r' :: t, acc => acc.reverse :: splitlinesGo t []
  | c :: t, acc => splitlinesGo t (c :: acc)

def splitlinesPy (s : List Char) : List (List Char) := splitlinesGo s []

/-- `re.search(r"[.!?]\s*$", s)` as a predicate: the last non-whitespace
character is sentence-ending punctuation. -/
def endsPunct (s : List Char) : Bool :=
  match s.reverse.dropWhile isSpacePy with
  | c :: _ => c = '.' || c = '!' || c = '?'
  | [] => false

/-- The look-ahead merge loop of `clean_text`: `cur` is `lines[i]` (the
most recently consumed raw line), `rest` the raw lines after it.  Returns
the stripped continuation lines merged into the current output line and
the unconsumed remainder.  Merging continues while the next line is
non-blank, `lines[i]` or the next line has ≤ 3 words, and `lines[i]` does
not end in sentence punctuation. -/
def mergeLoop (cur : List Char) : List (List Char) → List (List Char) × List (List Char)
  | [] => ([], [])
  | nl :: t =>
    let next := pyStrip nl
    if next.isEmpty then ([], nl :: t)
    else if ((pySplit (pyStrip cur)).length ≤ 3 || (pySplit next).length ≤ 3)
        && !endsPunct (pyStrip cur) then
      let r := mergeLoop nl t
      (next :: r.1, r.2)
    else ([], nl :: t)

theorem mergeLoop_rest_length (cur : List Char) (ls : List (List Char)) :
    (mergeLoop cur ls).2.length ≤ ls.length := by
  induction ls generalizing cur with
  | nil => simp [mergeLoop]
  | cons nl t ih =>
    simp only [mergeLoop]
    split
    · simp
    · split
      · exact Nat.le_trans (ih nl) (Nat.le_succ _)
      · simp

/-- Helper for `collapseSpaces`: the flag records whether we are inside a
space run whose first space was already emitted. -/
def collapseSpacesGo : Bool → List Char → List Char
  | _, [] => []
  | inRun, c :: t =>
    if c = ' ' then
      (if inRun then collapseSpacesGo true t else ' ' :: collapseSpacesGo true t)
    else c :: collapseSpacesGo false t

/-- `re.sub(r" {2,}", " ", s)`: each run of spaces becomes one space. -/
def collapseSpaces (s : List Char) : List Char := collapseSpacesGo false s

/-- The line-reconstruction loop of `clean_text`, with an explicit fuel:
each iteration consumes at least the head line, so `fuel = lines.length`
(supplied by `cleanLoop` below) never runs out. -/
def cleanLoopGo : Nat → List (List Char) → Bool → List (List Char)
  | 0, _, _ => []
  | fuel + 1, lines, lastNonBlank =>
    match lines with
    | [] => []
    | l :: t =>
      let line := pyStrip l
      if line.isEmpty then
        (if lastNonBlank then [] :: cleanLoopGo fuel t false else cleanLoopGo fuel t false)
      else
        collapseSpaces (joinSpace (line :: (mergeLoop l t).1)) ::
          cleanLoopGo fuel (mergeLoop l t).2 true

/-- The line-reconstruction loop of `clean_text`.  `lastNonBlank` records
whether the last emitted cleaned line is non-empty (a blank source line
appends one empty separator only in that case). -/
def cleanLoop (lines : List (List Char)) (lastNonBlank : Bool) : List (List Char) :=
  cleanLoopGo lines.length lines lastNonBlank

/-- `\w` (ASCII fragment). -/
def isWordChar (c : Char) : Bool := c.isAlpha || isDigitPy c || c = '_'

/-- `re.sub(r"-\n(\w)", r"\1", s)`: rejoin hyphenated line breaks.  On a
failed match the scan advances one position; since a match can only start
at `-`, the skipped `\n` is emitted directly. -/
def dehyphen : List Char → List Char
  | '-' :: '\n' :: c :: t =>
    if isWordChar c then c :: dehyphen t else '-' :: '\n' :: dehyphen (c :: t)
  | c :: t => c :: dehyphen t
  | [] => []

/-- Flush a pending run of `k` newlines: 3 or more collapse to two. -/
def nlFlush (k : Nat) : List Char :=
  if 3 ≤ k then ['\n', '\n'] else List.replicate k '\n'

/-- Helper for `collapseNewlines`: `k` counts pending newlines. -/
def collapseNlGo : Nat → List Char → List Char
  | k, [] => nlFlush k
  | k, c :: t =>
    if c = '\n' then collapseNlGo (k + 1) t
    else nlFlush k ++ c :: collapseNlGo 0 t

/-- `re.sub(r"\n{3,}", "\n\n", s)`: runs of 3+ newlines become two. -/
def collapseNewlines (s : List Char) : List Char := collapseNlGo 0 s

/-- `clean_text(text)` (pdf.py). -/
def clean_text (text : List Char) : List Char :=
  let lines := splitlinesPy text
  let cleaned := cleanLoop lines false
  let t := joinSep ['\n'] cleaned
  let t := dehyphen t
  let t := collapseNewlines t
  pyStrip t

/-! ### pdf.py — `chunk_pages` -/

/-- Python `page_text.split("\n\n")` (leftmost, non-overlapping). -/
def splitParas : List Char → List Char → List (List Char)
  | [], acc => [acc.reverse]
  | '\n' :: '\n' :: t, acc => acc.reverse :: splitParas t []
  | c :: t, acc => splitParas t (c :: acc)

structure Chunk where
  content : List Char
  page_start : Nat
  page_end : Nat
deriving DecidableEq, Repr

/-- Flatten pages into `(page_num, stripped paragraph)` pairs, dropping
empty paragraphs. -/
def paraList (pages : List (Nat × List Char)) : List (Nat × List Char) :=
  pages.flatMap (fun pg => (splitParas pg.2 []).filterMap (fun para =>
    let p := pyStrip para
    if p.isEmpty then none else some (pg.1, p)))

/-- Accumulator state of the `chunk_pages` loop. -/
structure ChunkSt where
  chunks : List Chunk
  cur : List Char
  cps : Nat
  cpe : Nat

/-- One iteration of the `chunk_pages` paragraph loop. -/
def chunkStep (chunk_size overlap : Nat) (st : ChunkSt) (pp : Nat × List Char) : ChunkSt :=
  if !st.cur.isEmpty ∧ chunk_size < st.cur.length + pp.2.length + 2 then
    let closed : Chunk := ⟨pyStrip st.cur, st.cps, st.cpe⟩
    let newCur :=
      if 0 < overlap ∧ overlap < st.cur.length then
        st.cur.drop (st.cur.length - overlap) ++ '\n' :: '\n' :: pp.2
      else pp.2
    ⟨st.chunks ++ [closed], newCur, pp.1, pp.1⟩
  else
    ⟨st.chunks, if st.cur.isEmpty then pp.2 else st.cur ++ '\n' :: '\n' :: pp.2, st.cps, pp.1⟩

/-- `chunk_pages(pages, chunk_size, overlap)` (pdf.py). -/
def chunk_pages (pages : List (Nat × List Char)) (chunk_size overlap : Nat) : List Chunk :=
  let pl := paraList pages
  match pl with
  | [] => []
  | p0 :: _ =>
    let st := pl.foldl (chunkStep chunk_size overlap) ⟨[], [], p0.1, p0.1⟩
    if !(pyStrip st.cur).isEmpty then st.chunks ++ [⟨pyStrip st.cur, st.cps, st.cpe⟩]
    else st.chunks

/-! ### Lemmas about the SequenceMatcher embedding -/

/-- Invariant on a `j2len` row table after `r` processed rows. -/
def JInv (blo : Nat) (f : Nat → Nat) (r : Nat) : Prop :=
  ∀ x, f x ≤ r ∧ (f x ≠ 0 → blo ≤ x ∧ f x ≤ x + 1 - blo)

/-- Invariant on the running best block after `r` processed rows. -/
def BInv (alo blo bhi : Nat) (bi bj bs r : Nat) : Prop :=
  alo ≤ bi ∧ blo ≤ bj ∧ bs ≤ r ∧
    (bs ≠ 0 → bi + bs ≤ alo + r ∧ bj + bs ≤ bhi) ∧
    (bs = 0 → bi = alo ∧ bj = blo)

theorem kOf_pos (old : Nat → Nat) (j : Nat) : 0 < kOf old j := by
  cases j <;> simp [kOf]

theorem kOf_zero (old : Nat → Nat) : kOf old 0 = 1 := rfl

theorem kOf_succ (old : Nat → Nat) (j : Nat) : kOf old (j + 1) = old j + 1 := rfl

theorem rowStep_eq (old : Nat → Nat) (i : Nat) (acc : RowAcc) (j : Nat) :
    rowStep old i acc j =
      if acc.bs < kOf old j then
        ⟨fun x => if x = j then kOf old j else acc.nj x, i + 1 - kOf old j,
          j + 1 - kOf old j, kOf old j⟩
      else ⟨fun x => if x = j then kOf old j else acc.nj x, acc.bi, acc.bj, acc.bs⟩ := rfl

theorem rowFold_inv (old : Nat → Nat) (alo blo bhi rows : Nat)
    (Hold : JInv blo old rows) (js : List Nat)
    (hjs : ∀ j ∈ js, blo ≤ j ∧ j < bhi) :
    ∀ acc : RowAcc, JInv blo acc.nj (rows + 1) →
      BInv alo blo bhi acc.bi acc.bj acc.bs (rows + 1) →
      JInv blo (js.foldl (rowStep old (alo + rows)) acc).nj (rows + 1) ∧
      BInv alo blo bhi (js.foldl (rowStep old (alo + rows)) acc).bi
        (js.foldl (rowStep old (alo + rows)) acc).bj
        (js.foldl (rowStep old (alo + rows)) acc).bs (rows + 1) := by
  induction js with
  | nil => intro acc h1 h2; exact ⟨h1, h2⟩
  | cons j t ih =>
    intro acc hJ hB
    have hj := hjs j (List.mem_cons_self _ _)
    have hjs' : ∀ j ∈ t, blo ≤ j ∧ j < bhi := fun x hx => hjs x (List.mem_cons_of_mem _ hx)
    have hkpos : 0 < kOf old j := kOf_pos old j
    have hkle : kOf old j ≤ rows + 1 := by
      cases j with
      | zero => rw [kOf_zero]; omega
      | succ j' => rw [kOf_succ]; have := (Hold j').1; omega
    have hkcol : kOf old j ≤ j + 1 - blo := by
      cases j with
      | zero =>
        have : blo = 0 := Nat.le_zero.mp hj.1
        rw [kOf_zero]; omega
      | succ j' =>
        rw [kOf_succ]
        rcases Nat.eq_zero_or_pos (old j') with h0 | hp
        · rw [h0]; omega
        · have := (Hold j').2 (by omega)
          omega
    have hJ' : JInv blo (fun x => if x = j then kOf old j else acc.nj x) (rows + 1) := by
      intro x
      by_cases hx : x = j
      · subst hx; simp only [if_pos rfl]
        exact ⟨hkle, fun _ => ⟨hj.1, hkcol⟩⟩
      · simp only [if_neg hx]; exact hJ x
    simp only [List.foldl_cons, rowStep_eq]
    split
    · refine ih hjs' ⟨fun x => if x = j then kOf old j else acc.nj x,
        alo + rows + 1 - kOf old j, j + 1 - kOf old j, kOf old j⟩ hJ' ?_
      refine ⟨?_, ?_, hkle, fun _ => ⟨?_, ?_⟩, fun h => ?_⟩
      · show alo ≤ alo + rows + 1 - kOf old j
        omega
      · show blo ≤ j + 1 - kOf old j
        omega
      · show alo + rows + 1 - kOf old j + kOf old j ≤ alo + (rows + 1)
        omega
      · show j + 1 - kOf old j + kOf old j ≤ bhi
        have : j + 1 ≤ bhi := hj.2
        omega
      · exact absurd h (by show kOf old j ≠ 0; omega)
    · exact ih hjs' ⟨fun x => if x = j then kOf old j else acc.nj x,
        acc.bi, acc.bj, acc.bs⟩ hJ' hB

theorem flmLoop_inv (a b : List Char) (alo blo bhi : Nat) :
    ∀ (m rows : Nat) (st : FLState), JInv blo st.j2len rows →
      BInv alo blo bhi st.besti st.bestj st.bestsize rows →
      JInv blo ((List.range' (alo + rows) m).foldl (flmRow a b blo bhi) st).j2len (rows + m) ∧
      BInv alo blo bhi
        ((List.range' (alo + rows) m).foldl (flmRow a b blo bhi) st).besti
        ((List.range' (alo + rows) m).foldl (flmRow a b blo bhi) st).bestj
        ((List.range' (alo + rows) m).foldl (flmRow a b blo bhi) st).bestsize (rows + m) := by
  intro m
  induction m with
  | zero => intro rows st h1 h2; simpa using ⟨h1, h2⟩
  | succ m ih =>
    intro rows st h1 h2
    have hrange : List.range' (alo + rows) (m + 1) =
        (alo + rows) :: List.range' (alo + rows + 1) m := List.range'_succ _ _ 1
    rw [hrange]
    simp only [List.foldl_cons]
    have hjs : ∀ j ∈ jsRow a b blo bhi (alo + rows), blo ≤ j ∧ j < bhi := by
      intro j hj
      simp only [jsRow, List.mem_filter, Bool.and_eq_true, decide_eq_true_eq] at hj
      exact hj.2
    have hBw : BInv alo blo bhi st.besti st.bestj st.bestsize (rows + 1) := by
      obtain ⟨x1, x2, x3, x4, x5⟩ := h2
      exact ⟨x1, x2, by omega, fun h => ⟨by have := (x4 h).1; omega, (x4 h).2⟩, x5⟩
    have hrow := rowFold_inv st.j2len alo blo bhi rows h1
      (jsRow a b blo bhi (alo + rows)) hjs
      ⟨fun _ => 0, st.besti, st.bestj, st.bestsize⟩
      (by intro x; exact ⟨Nat.zero_le _, fun h => absurd rfl h⟩) hBw
    have := ih (rows + 1) (flmRow a b blo bhi st (alo + rows)) hrow.1 hrow.2
    rw [show alo + (rows + 1) = alo + rows + 1 from rfl] at this
    rw [show rows + 1 + m = rows + (m + 1) from by omega] at this
    exact this

theorem extendBack_step_pos (a b : List Char) (alo blo bi bj bs : Nat)
    (h : alo < bi ∧ blo < bj ∧ a.getD (bi - 1) ' ' = b.getD (bj - 1) ' ') :
    extendBack a b alo blo bi bj bs = extendBack a b alo blo (bi - 1) (bj - 1) (bs + 1) := by
  cases bi with
  | zero => exact absurd h.1 (by omega)
  | succ bi' =>
    simp only [extendBack]
    rw [if_pos h]
    simp only [Nat.add_sub_cancel]

theorem extendBack_step_neg (a b : List Char) (alo blo bi bj bs : Nat)
    (h : ¬(alo < bi ∧ blo < bj ∧ a.getD (bi - 1) ' ' = b.getD (bj - 1) ' ')) :
    extendBack a b alo blo bi bj bs = (bi, bj, bs) := by
  cases bi with
  | zero => rfl
  | succ bi' =>
    simp only [extendBack]
    rw [if_neg h]

theorem extendBack_spec (a b : List Char) (alo blo : Nat) :
    ∀ bi bj bs, alo ≤ bi → blo ≤ bj →
      alo ≤ (extendBack a b alo blo bi bj bs).1 ∧
      blo ≤ (extendBack a b alo blo bi bj bs).2.1 ∧
      (extendBack a b alo blo bi bj bs).1 + (extendBack a b alo blo bi bj bs).2.2 = bi + bs ∧
      (extendBack a b alo blo bi bj bs).2.1 + (extendBack a b alo blo bi bj bs).2.2 = bj + bs := by
  intro bi
  induction bi with
  | zero =>
    intro bj bs h1 h2
    rw [extendBack_step_neg a b alo blo 0 bj bs (by omega)]
    exact ⟨h1, h2, rfl, rfl⟩
  | succ bi' ih =>
    intro bj bs h1 h2
    by_cases hg : alo < bi' + 1 ∧ blo < bj ∧ a.getD (bi' + 1 - 1) ' ' = b.getD (bj - 1) ' '
    · rw [extendBack_step_pos a b alo blo (bi' + 1) bj bs hg]
      simp only [Nat.add_sub_cancel]
      have := ih (bj - 1) (bs + 1) (by omega) (by omega)
      refine ⟨this.1, this.2.1, ?_, ?_⟩ <;> omega
    · rw [extendBack_step_neg a b alo blo (bi' + 1) bj bs hg]
      exact ⟨h1, h2, rfl, rfl⟩

theorem extendBack_zero (a b : List Char) (alo blo bj bs : Nat) :
    extendBack a b alo blo alo bj bs = (alo, bj, bs) :=
  extendBack_step_neg a b alo blo alo bj bs (by simp)

theorem extendFwd_step_pos (a b : List Char) (ahi bhi bi bj bs : Nat)
    (h : bi + bs < ahi ∧ bj + bs < bhi ∧ a.getD (bi + bs) ' ' = b.getD (bj + bs) ' ') :
    extendFwd a b ahi bhi bi bj bs = extendFwd a b ahi bhi bi bj (bs + 1) := by
  simp only [extendFwd]
  have hm : ahi - (bi + bs) = (ahi - (bi + (bs + 1))) + 1 := by omega
  rw [hm]
  simp only [extendFwdGo]
  rw [if_pos h]

theorem extendFwd_step_neg (a b : List Char) (ahi bhi bi bj bs : Nat)
    (h : ¬(bi + bs < ahi ∧ bj + bs < bhi ∧ a.getD (bi + bs) ' ' = b.getD (bj + bs) ' ')) :
    extendFwd a b ahi bhi bi bj bs = bs := by
  simp only [extendFwd]
  cases hm : ahi - (bi + bs) with
  | zero => rfl
  | succ m =>
    simp only [extendFwdGo]
    rw [if_neg h]

theorem extendFwd_ge (a b : List Char) (ahi bhi : Nat) :
    ∀ bi bj bs, bs ≤ extendFwd a b ahi bhi bi bj bs := by
  intro bi bj bs
  generalize hm : ahi - (bi + bs) = m
  induction m generalizing bs with
  | zero =>
    rw [extendFwd_step_neg a b ahi bhi bi bj bs (fun hg => by have := hg.1; omega)]
  | succ m ih =>
    by_cases hg : bi + bs < ahi ∧ bj + bs < bhi ∧ a.getD (bi + bs) ' ' = b.getD (bj + bs) ' '
    · rw [extendFwd_step_pos a b ahi bhi bi bj bs hg]
      have := ih (bs + 1) (by omega)
      omega
    · rw [extendFwd_step_neg a b ahi bhi bi bj bs hg]

theorem extendFwd_bound (a b : List Char) (ahi bhi : Nat) :
    ∀ bi bj bs, extendFwd a b ahi bhi bi bj bs ≠ bs →
      bi + extendFwd a b ahi bhi bi bj bs ≤ ahi ∧
      bj + extendFwd a b ahi bhi bi bj bs ≤ bhi := by
  intro bi bj bs
  generalize hm : ahi - (bi + bs) = m
  induction m generalizing bs with
  | zero =>
    rw [extendFwd_step_neg a b ahi bhi bi bj bs (fun hg => by have := hg.1; omega)]
    intro hne
    exact absurd rfl hne
  | succ m ih =>
    by_cases hg : bi + bs < ahi ∧ bj + bs < bhi ∧ a.getD (bi + bs) ' ' = b.getD (bj + bs) ' '
    · rw [extendFwd_step_pos a b ahi bhi bi bj bs hg]
      intro _
      by_cases he : extendFwd a b ahi bhi bi bj (bs + 1) = bs + 1
      · rw [he]; omega
      · exact ih (bs + 1) (by omega) he
    · rw [extendFwd_step_neg a b ahi bhi bi bj bs hg]
      intro hne
      exact absurd rfl hne

theorem flm_bounds (a b : List Char) (alo ahi blo bhi : Nat) :
    alo ≤ (findLongestMatch a b alo ahi blo bhi).1 ∧
    blo ≤ (findLongestMatch a b alo ahi blo bhi).2.1 ∧
    ((findLongestMatch a b alo ahi blo bhi).2.2 ≠ 0 →
      (findLongestMatch a b alo ahi blo bhi).1 + (findLongestMatch a b alo ahi blo bhi).2.2 ≤ ahi ∧
      (findLongestMatch a b alo ahi blo bhi).2.1 +
        (findLongestMatch a b alo ahi blo bhi).2.2 ≤ bhi) := by
  have hloop := flmLoop_inv a b alo blo bhi (ahi - alo) 0
    ⟨fun _ => 0, alo, blo, 0⟩
    (by intro x; exact ⟨Nat.le_refl 0, fun h => absurd rfl h⟩)
    ⟨le_refl _, le_refl _, le_refl _, fun h => absurd rfl h, fun _ => ⟨rfl, rfl⟩⟩
  rw [Nat.add_zero, Nat.zero_add] at hloop
  obtain ⟨-, hB⟩ := hloop
  set st := (List.range' alo (ahi - alo)).foldl (flmRow a b blo bhi)
    (⟨fun _ => 0, alo, blo, 0⟩ : FLState) with hst
  obtain ⟨hbi, hbj, hbs, hne, hz⟩ := hB
  have hfind : findLongestMatch a b alo ahi blo bhi =
      ((extendBack a b alo blo st.besti st.bestj st.bestsize).1,
        (extendBack a b alo blo st.besti st.bestj st.bestsize).2.1,
        extendFwd a b ahi bhi
          (extendBack a b alo blo st.besti st.bestj st.bestsize).1
          (extendBack a b alo blo st.besti st.bestj st.bestsize).2.1
          (extendBack a b alo blo st.besti st.bestj st.bestsize).2.2) := rfl
  rw [hfind]
  rcases Nat.eq_zero_or_pos st.bestsize with h0 | hpos
  · obtain ⟨e1, e2⟩ := hz h0
    rw [e1, e2, h0, extendBack_zero]
    refine ⟨le_refl _, le_refl _, fun hk => ?_⟩
    exact extendFwd_bound a b ahi bhi alo blo 0 hk
  · have hb := extendBack_spec a b alo blo st.besti st.bestj st.bestsize hbi hbj
    obtain ⟨g1, g2, g3, g4⟩ := hb
    have hbnd := hne (by omega)
    have h1 : (extendBack a b alo blo st.besti st.bestj st.bestsize).1 +
        (extendBack a b alo blo st.besti st.bestj st.bestsize).2.2 ≤ ahi := by omega
    have h2 : (extendBack a b alo blo st.besti st.bestj st.bestsize).2.1 +
        (extendBack a b alo blo st.besti st.bestj st.bestsize).2.2 ≤ bhi := by omega
    refine ⟨g1, g2, fun _ => ?_⟩
    by_cases hfe : extendFwd a b ahi bhi
        (extendBack a b alo blo st.besti st.bestj st.bestsize).1
        (extendBack a b alo blo st.besti st.bestj st.bestsize).2.1
        (extendBack a b alo blo st.besti st.bestj st.bestsize).2.2 =
        (extendBack a b alo blo st.besti st.bestj st.bestsize).2.2
    · rw [hfe]; exact ⟨h1, h2⟩
    · exact extendFwd_bound a b ahi bhi _ _ _ hfe

theorem matchTotal_le (a b : List Char) :
    ∀ fuel alo ahi blo bhi, matchTotal a b fuel alo ahi blo bhi ≤ ahi - alo ∧
      matchTotal a b fuel alo ahi blo bhi ≤ bhi - blo := by
  intro fuel
  induction fuel with
  | zero => intro alo ahi blo bhi; simp [matchTotal]
  | succ fuel ih =>
    intro alo ahi blo bhi
    have hb := flm_bounds a b alo ahi blo bhi
    simp only [matchTotal]
    split
    · simp
    · rename_i hk
      obtain ⟨h1, h2, h3⟩ := hb
      have h4 := h3 hk
      set r := findLongestMatch a b alo ahi blo bhi
      have hL := ih alo r.1 blo r.2.1
      have hR := ih (r.1 + r.2.2) ahi (r.2.1 + r.2.2) bhi
      constructor <;> (split <;> split <;> omega)

theorem smRatio_nonneg (a b : List Char) : 0 ≤ smRatio a b := by
  simp only [smRatio]
  split
  · norm_num
  · positivity

theorem smRatio_le_one (a b : List Char) : smRatio a b ≤ 1 := by
  simp only [smRatio]
  split
  · norm_num
  · rename_i hT
    rw [div_le_one (by positivity)]
    have h := matchTotal_le a b (a.length + b.length + 1) 0 a.length 0 b.length
    have h2 : matchTotal a b (a.length + b.length + 1) 0 a.length 0 b.length ≤ a.length := by
      simpa using h.1
    have h3 : matchTotal a b (a.length + b.length + 1) 0 a.length 0 b.length ≤ b.length := by
      simpa using h.2
    push_cast
    have : (matchTotal a b (a.length + b.length + 1) 0 a.length 0 b.length : ℚ) ≤ a.length :=
      by exact_mod_cast h2
    have : (matchTotal a b (a.length + b.length + 1) 0 a.length 0 b.length : ℚ) ≤ b.length :=
      by exact_mod_cast h3
    nlinarith [h2, h3]

theorem mem_b2j {b : List Char} {c : Char} {j : Nat} :
    j ∈ b2j b c ↔ ¬popC b c ∧ j < b.length ∧ b.get? j = some c := by
  simp only [b2j]
  split
  · rename_i h; simp [h]
  · rename_i h
    simp [List.mem_filter, List.mem_range, h]

theorem b2j_sorted (b : List Char) (c : Char) : (b2j b c).Pairwise (· < ·) := by
  simp only [b2j]
  split
  · exact List.Pairwise.nil
  · exact List.Pairwise.sublist (List.filter_sublist _) (List.pairwise_lt_range _)

theorem mem_jsRow {a b : List Char} {blo bhi i j : Nat} :
    j ∈ jsRow a b blo bhi i ↔
      j ∈ b2j b (a.getD i ' ') ∧ blo ≤ j ∧ j < bhi := by
  simp [jsRow, List.mem_filter]

theorem jsRow_sorted (a b : List Char) (blo bhi i : Nat) :
    (jsRow a b blo bhi i).Pairwise (· < ·) :=
  List.Pairwise.sublist (List.filter_sublist _) (b2j_sorted b _)

theorem sorted_split {l : List Nat} {r : Nat} (hs : l.Pairwise (· < ·)) (hm : r ∈ l) :
    ∃ l1 l2, l = l1 ++ r :: l2 ∧ (∀ x ∈ l1, x < r) ∧ (∀ x ∈ l2, r < x) := by
  obtain ⟨l1, l2, rfl⟩ := List.append_of_mem hm
  rw [List.pairwise_append] at hs
  refine ⟨l1, l2, rfl, ?_, ?_⟩
  · intro x hx
    exact hs.2.2 x hx r (List.mem_cons_self _ _)
  · intro x hx
    exact (List.pairwise_cons.mp hs.2.1).1 x hx

/-! The identical-sequences case.  `npRun a i` is the length of the maximal
run of non-popular characters of `a` ending at index `i` — the value the
inner sweep's `j2len` holds on the main diagonal. -/

def npRun (a : List Char) : Nat → Nat
  | 0 => if popC a (a.getD 0 ' ') then 0 else 1
  | Nat.succ i => if popC a (a.getD (i + 1) ' ') then 0 else npRun a i + 1

theorem npRun_zero_nonpop {a : List Char} (h : ¬popC a (a.getD 0 ' ')) :
    npRun a 0 = 1 := by
  simp only [npRun]
  rw [if_neg h]

theorem npRun_succ_nonpop {a : List Char} {i : Nat} (h : ¬popC a (a.getD (i + 1) ' ')) :
    npRun a (i + 1) = npRun a i + 1 := by
  simp only [npRun]
  rw [if_neg h]

theorem npRun_pop {a : List Char} {i : Nat} (h : popC a (a.getD i ' ')) :
    npRun a i = 0 := by
  cases i with
  | zero => simp only [npRun]; rw [if_pos h]
  | succ s => simp only [npRun]; rw [if_pos h]

/-- `prevRun a r` is `npRun` at the previous row (0 for the first row). -/
def prevRun (a : List Char) : Nat → Nat
  | 0 => 0
  | Nat.succ s => npRun a s

theorem npRun_of_nonpop {a : List Char} {r : Nat} (h : ¬popC a (a.getD r ' ')) :
    npRun a r = prevRun a r + 1 := by
  cases r with
  | zero => rw [npRun_zero_nonpop h]; rfl
  | succ s => rw [npRun_succ_nonpop h]; rfl

theorem getD_of_get? {a : List Char} {j : Nat} {c : Char} (h : a.get? j = some c) :
    a.getD j ' ' = c := by
  simp only [List.getD]
  rw [h]
  rfl

/-- In the inner sweep on `(a, a)`, a column `j < r` never updates the best
block, and every new table entry is bounded by `npRun` at its column and at
the current row. -/
theorem selfPhase1 (a : List Char) (r : Nat) (old : Nat → Nat)
    (hold1 : ∀ x, old x ≤ npRun a x) (hold2 : ∀ x, old x ≤ prevRun a r)
    (hnp : ¬popC a (a.getD r ' ')) (l1 : List Nat)
    (hl1 : ∀ j ∈ l1, j < r ∧ a.get? j = some (a.getD r ' ')) :
    ∀ acc : RowAcc, acc.bi = acc.bj → (∀ s, s < r → npRun a s ≤ acc.bs) →
      (∀ x, acc.nj x ≤ npRun a x ∧ acc.nj x ≤ npRun a r) →
      (l1.foldl (rowStep old r) acc).bi = acc.bi ∧
      (l1.foldl (rowStep old r) acc).bj = acc.bj ∧
      (l1.foldl (rowStep old r) acc).bs = acc.bs ∧
      (∀ x, (l1.foldl (rowStep old r) acc).nj x ≤ npRun a x ∧
        (l1.foldl (rowStep old r) acc).nj x ≤ npRun a r) := by
  induction l1 with
  | nil => intro acc h1 h2 h3; exact ⟨rfl, rfl, rfl, h3⟩
  | cons j t ih =>
    intro acc h1 h2 h3
    obtain ⟨hjr, hjc⟩ := hl1 j (List.mem_cons_self _ _)
    have hl1' : ∀ j ∈ t, j < r ∧ a.get? j = some (a.getD r ' ') :=
      fun x hx => hl1 x (List.mem_cons_of_mem _ hx)
    have hjnp : ¬popC a (a.getD j ' ') := by
      rw [getD_of_get? hjc]; exact hnp
    -- k is bounded by the run at column j, hence by the current best
    have hkj : kOf old j ≤ npRun a j := by
      cases j with
      | zero => rw [kOf_zero, npRun_zero_nonpop hjnp]
      | succ j' =>
        rw [kOf_succ, npRun_succ_nonpop hjnp]
        exact Nat.add_le_add_right (hold1 j') 1
    have hkr : kOf old j ≤ npRun a r := by
      rw [npRun_of_nonpop hnp]
      cases j with
      | zero => rw [kOf_zero]; omega
      | succ j' =>
        rw [kOf_succ]
        have := hold2 j'
        omega
    have hkbs : kOf old j ≤ acc.bs := le_trans hkj (h2 j hjr)
    have hstep : rowStep old r acc j =
        ⟨fun x => if x = j then kOf old j else acc.nj x, acc.bi, acc.bj, acc.bs⟩ := by
      rw [rowStep_eq, if_neg (by omega)]
    rw [List.foldl_cons, hstep]
    have h3' : ∀ x, (fun x => if x = j then kOf old j else acc.nj x) x ≤ npRun a x ∧
        (fun x => if x = j then kOf old j else acc.nj x) x ≤ npRun a r := by
      intro x
      by_cases hx : x = j
      · subst hx; simp only [if_pos rfl]; exact ⟨hkj, hkr⟩
      · simp only [if_neg hx]; exact h3 x
    exact ih hl1' ⟨fun x => if x = j then kOf old j else acc.nj x, acc.bi, acc.bj, acc.bs⟩
      h1 h2 h3'

/-- In the inner sweep on `(a, a)`, once the diagonal column has been
processed (so the best size reaches the diagonal run), columns `j > r`
never update the best block either. -/
theorem selfPhase3 (a : List Char) (r : Nat) (old : Nat → Nat)
    (hold1 : ∀ x, old x ≤ npRun a x) (hold2 : ∀ x, old x ≤ prevRun a r)
    (hnp : ¬popC a (a.getD r ' ')) (l2 : List Nat)
    (hl2 : ∀ j ∈ l2, r < j ∧ a.get? j = some (a.getD r ' ')) :
    ∀ acc : RowAcc, acc.bi = acc.bj → (∀ s, s < r + 1 → npRun a s ≤ acc.bs) →
      acc.nj r = npRun a r →
      (∀ x, acc.nj x ≤ npRun a x ∧ acc.nj x ≤ npRun a r) →
      (l2.foldl (rowStep old r) acc).bi = acc.bi ∧
      (l2.foldl (rowStep old r) acc).bj = acc.bj ∧
      (l2.foldl (rowStep old r) acc).bs = acc.bs ∧
      (l2.foldl (rowStep old r) acc).nj r = npRun a r ∧
      (∀ x, (l2.foldl (rowStep old r) acc).nj x ≤ npRun a x ∧
        (l2.foldl (rowStep old r) acc).nj x ≤ npRun a r) := by
  induction l2 with
  | nil => intro acc h1 h2 h3 h4; exact ⟨rfl, rfl, rfl, h3, h4⟩
  | cons j t ih =>
    intro acc h1 h2 h3 h4
    obtain ⟨hjr, hjc⟩ := hl2 j (List.mem_cons_self _ _)
    have hl2' : ∀ j ∈ t, r < j ∧ a.get? j = some (a.getD r ' ') :=
      fun x hx => hl2 x (List.mem_cons_of_mem _ hx)
    have hjnp : ¬popC a (a.getD j ' ') := by
      rw [getD_of_get? hjc]; exact hnp
    have hkr : kOf old j ≤ npRun a r := by
      rw [npRun_of_nonpop hnp]
      cases j with
      | zero => omega
      | succ j' =>
        rw [kOf_succ]
        have := hold2 j'
        omega
    have hkj : kOf old j ≤ npRun a j := by
      cases j with
      | zero => omega
      | succ j' =>
        rw [kOf_succ, npRun_succ_nonpop hjnp]
        exact Nat.add_le_add_right (hold1 j') 1
    have hkbs : kOf old j ≤ acc.bs := le_trans hkr (h2 r (Nat.lt_succ_self r))
    have hstep : rowStep old r acc j =
        ⟨fun x => if x = j then kOf old j else acc.nj x, acc.bi, acc.bj, acc.bs⟩ := by
      rw [rowStep_eq, if_neg (by omega)]
    rw [List.foldl_cons, hstep]
    have hnjr : (fun x => if x = j then kOf old j else acc.nj x) r = npRun a r := by
      simp only [if_neg (by omega : ¬ r = j)]
      exact h3
    have h4' : ∀ x, (fun x => if x = j then kOf old j else acc.nj x) x ≤ npRun a x ∧
        (fun x => if x = j then kOf old j else acc.nj x) x ≤ npRun a r := by
      intro x
      by_cases hx : x = j
      · subst hx; simp only [if_pos rfl]; exact ⟨hkj, hkr⟩
      · simp only [if_neg hx]; exact h4 x
    exact ih hl2' ⟨fun x => if x = j then kOf old j else acc.nj x, acc.bi, acc.bj, acc.bs⟩
      h1 h2 hnjr h4'

/-- One full row of the sweep on `(a, a)`: every best update lies on the
diagonal, the best size dominates all diagonal runs seen so far, and the
new table is the diagonal-run table. -/
theorem selfRow (a : List Char) (r : Nat) (hrn : r < a.length) (st : FLState)
    (hold1 : ∀ x, st.j2len x ≤ npRun a x) (hold2 : ∀ x, st.j2len x ≤ prevRun a r)
    (holdd : ∀ s, r = s + 1 → st.j2len s = npRun a s)
    (hbest : st.besti = st.bestj) (hbs : ∀ s, s < r → npRun a s ≤ st.bestsize) :
    (flmRow a a 0 a.length st r).besti = (flmRow a a 0 a.length st r).bestj ∧
    (∀ s, s < r + 1 → npRun a s ≤ (flmRow a a 0 a.length st r).bestsize) ∧
    (∀ x, (flmRow a a 0 a.length st r).j2len x ≤ npRun a x ∧
      (flmRow a a 0 a.length st r).j2len x ≤ prevRun a (r + 1)) ∧
    (∀ s, r + 1 = s + 1 → (flmRow a a 0 a.length st r).j2len s = npRun a s) := by
  have hflm : flmRow a a 0 a.length st r =
      ⟨((jsRow a a 0 a.length r).foldl (rowStep st.j2len r)
          ⟨fun _ => 0, st.besti, st.bestj, st.bestsize⟩).nj,
        ((jsRow a a 0 a.length r).foldl (rowStep st.j2len r)
          ⟨fun _ => 0, st.besti, st.bestj, st.bestsize⟩).bi,
        ((jsRow a a 0 a.length r).foldl (rowStep st.j2len r)
          ⟨fun _ => 0, st.besti, st.bestj, st.bestsize⟩).bj,
        ((jsRow a a 0 a.length r).foldl (rowStep st.j2len r)
          ⟨fun _ => 0, st.besti, st.bestj, st.bestsize⟩).bs⟩ := rfl
  by_cases hpop : popC a (a.getD r ' ')
  · -- popular row: the occurrence index is empty, nothing happens
    have hempty : jsRow a a 0 a.length r = [] := by
      have hb : b2j a (a.getD r ' ') = [] := by
        simp only [b2j]
        rw [if_pos hpop]
      simp only [jsRow]
      rw [hb]
      rfl
    rw [hflm, hempty]
    simp only [List.foldl_nil]
    refine ⟨hbest, ?_, ?_, ?_⟩
    · intro s hs
      rcases Nat.lt_succ_iff_lt_or_eq.mp hs with h | h
      · exact hbs s h
      · subst h; rw [npRun_pop hpop]; exact Nat.zero_le _
    · intro x
      exact ⟨Nat.zero_le _, Nat.zero_le _⟩
    · intro s hs
      have : s = r := by omega
      subst this
      rw [npRun_pop hpop]
  · -- non-popular row: split the sorted column list around the diagonal
    have hrmem : r ∈ jsRow a a 0 a.length r := by
      rw [mem_jsRow, mem_b2j]
      refine ⟨⟨hpop, hrn, ?_⟩, Nat.zero_le _, hrn⟩
      have h1 : a.get? r = some (a.get ⟨r, hrn⟩) := List.get?_eq_get hrn
      rw [getD_of_get? h1, h1]
    obtain ⟨l1, l2, hsplit, hl1, hl2⟩ :=
      sorted_split (jsRow_sorted a a 0 a.length r) hrmem
    have hmemfacts : ∀ j ∈ jsRow a a 0 a.length r, a.get? j = some (a.getD r ' ') := by
      intro j hj
      rw [mem_jsRow, mem_b2j] at hj
      exact hj.1.2.2
    have hl1' : ∀ j ∈ l1, j < r ∧ a.get? j = some (a.getD r ' ') := by
      intro j hj
      exact ⟨hl1 j hj, hmemfacts j (by rw [hsplit]; exact List.mem_append_left _ hj)⟩
    have hl2' : ∀ j ∈ l2, r < j ∧ a.get? j = some (a.getD r ' ') := by
      intro j hj
      refine ⟨hl2 j hj, hmemfacts j ?_⟩
      rw [hsplit]
      exact List.mem_append_right _ (List.mem_cons_of_mem _ hj)
    rw [hflm, hsplit, List.foldl_append, List.foldl_cons]
    -- phase 1
    have hp1 := selfPhase1 a r st.j2len hold1 hold2 hpop l1 hl1'
      ⟨fun _ => 0, st.besti, st.bestj, st.bestsize⟩ hbest hbs
      (fun x => ⟨Nat.zero_le _, Nat.zero_le _⟩)
    set acc1 := l1.foldl (rowStep st.j2len r) ⟨fun _ => 0, st.besti, st.bestj, st.bestsize⟩
      with hacc1
    obtain ⟨q1x, q2x, q3x, q4⟩ := hp1
    have q1 : acc1.bi = st.besti := q1x
    have q2 : acc1.bj = st.bestj := q2x
    have q3 : acc1.bs = st.bestsize := q3x
    -- the diagonal step: k equals the diagonal run exactly
    have hkdiag : kOf st.j2len r = npRun a r := by
      cases r with
      | zero => rw [kOf_zero, npRun_zero_nonpop hpop]
      | succ s =>
        rw [kOf_succ, holdd s rfl, npRun_succ_nonpop hpop]
    have hstep2 : rowStep st.j2len r acc1 r =
        (if acc1.bs < kOf st.j2len r then
          ⟨fun x => if x = r then kOf st.j2len r else acc1.nj x,
            r + 1 - kOf st.j2len r, r + 1 - kOf st.j2len r, kOf st.j2len r⟩
         else ⟨fun x => if x = r then kOf st.j2len r else acc1.nj x,
            acc1.bi, acc1.bj, acc1.bs⟩) := rowStep_eq _ _ _ _
    have hacc2 : (rowStep st.j2len r acc1 r).bi = (rowStep st.j2len r acc1 r).bj ∧
        (∀ s, s < r + 1 → npRun a s ≤ (rowStep st.j2len r acc1 r).bs) ∧
        (rowStep st.j2len r acc1 r).nj r = npRun a r ∧
        (∀ x, (rowStep st.j2len r acc1 r).nj x ≤ npRun a x ∧
          (rowStep st.j2len r acc1 r).nj x ≤ npRun a r) ∧
        (rowStep st.j2len r acc1 r).bs ≤ max st.bestsize (npRun a r) := by
      rw [hstep2]
      split
      · rename_i hlt
        refine ⟨rfl, ?_, ?_, ?_, ?_⟩
        · intro s hs
          show npRun a s ≤ kOf st.j2len r
          rw [hkdiag]
          rcases Nat.lt_succ_iff_lt_or_eq.mp hs with h | h
          · have := hbs s h
            rw [q3] at hlt
            rw [hkdiag] at hlt
            omega
          · subst h; exact le_refl _
        · show (fun x => if x = r then kOf st.j2len r else acc1.nj x) r = npRun a r
          simp only [if_pos rfl]
          exact hkdiag
        · intro x
          show (if x = r then kOf st.j2len r else acc1.nj x) ≤ npRun a x ∧
            (if x = r then kOf st.j2len r else acc1.nj x) ≤ npRun a r
          by_cases hx : x = r
          · subst hx; simp only [if_pos rfl]; rw [hkdiag]; exact ⟨le_refl _, le_refl _⟩
          · simp only [if_neg hx]; exact q4 x
        · show kOf st.j2len r ≤ max st.bestsize (npRun a r)
          rw [hkdiag]
          exact le_max_right _ _
      · rename_i hge
        rw [q3] at hge
        rw [hkdiag] at hge
        refine ⟨by rw [q1, q2]; exact hbest, ?_, ?_, ?_, ?_⟩
        · intro s hs
          show npRun a s ≤ acc1.bs
          rw [q3]
          rcases Nat.lt_succ_iff_lt_or_eq.mp hs with h | h
          · exact hbs s h
          · subst h; omega
        · show (fun x => if x = r then kOf st.j2len r else acc1.nj x) r = npRun a r
          simp only [if_pos rfl]
          exact hkdiag
        · intro x
          show (if x = r then kOf st.j2len r else acc1.nj x) ≤ npRun a x ∧
            (if x = r then kOf st.j2len r else acc1.nj x) ≤ npRun a r
          by_cases hx : x = r
          · subst hx; simp only [if_pos rfl]; rw [hkdiag]; exact ⟨le_refl _, le_refl _⟩
          · simp only [if_neg hx]; exact q4 x
        · show acc1.bs ≤ max st.bestsize (npRun a r)
          rw [q3]
          exact le_max_left _ _
    -- phase 3
    obtain ⟨w1, w2, w3, w4, w5⟩ := hacc2
    have hp3 := selfPhase3 a r st.j2len hold1 hold2 hpop l2 hl2'
      (rowStep st.j2len r acc1 r) w1 w2 w3 w4
    obtain ⟨z1, z2, z3, z4, z5⟩ := hp3
    refine ⟨?_, ?_, ?_, ?_⟩
    · show (l2.foldl (rowStep st.j2len r) (rowStep st.j2len r acc1 r)).bi =
        (l2.foldl (rowStep st.j2len r) (rowStep st.j2len r acc1 r)).bj
      rw [z1, z2]; exact w1
    · intro s hs
      show npRun a s ≤ (l2.foldl (rowStep st.j2len r) (rowStep st.j2len r acc1 r)).bs
      rw [z3]; exact w2 s hs
    · intro x
      have := z5 x
      exact ⟨this.1, by
        show (l2.foldl (rowStep st.j2len r) (rowStep st.j2len r acc1 r)).nj x ≤
          prevRun a (r + 1)
        exact this.2⟩
    · intro s hs
      have : s = r := by omega
      subst this
      exact z4

/-- Sweeping rows `rows, rows+1, …` of `(a, a)` keeps the best block on the
diagonal. -/
theorem selfLoop (a : List Char) :
    ∀ (m rows : Nat) (st : FLState), rows + m ≤ a.length →
      (∀ x, st.j2len x ≤ npRun a x) → (∀ x, st.j2len x ≤ prevRun a rows) →
      (∀ s, rows = s + 1 → st.j2len s = npRun a s) →
      st.besti = st.bestj → (∀ s, s < rows → npRun a s ≤ st.bestsize) →
      ((List.range' rows m).foldl (flmRow a a 0 a.length) st).besti =
        ((List.range' rows m).foldl (flmRow a a 0 a.length) st).bestj ∧
      (∀ s, s < rows + m →
        npRun a s ≤ ((List.range' rows m).foldl (flmRow a a 0 a.length) st).bestsize) := by
  intro m
  induction m with
  | zero =>
    intro rows st _ _ _ _ h5 h6
    exact ⟨h5, fun s hs => h6 s (by omega)⟩
  | succ m ih =>
    intro rows st hlen h1 h2 h3 h4 h5
    have hrange : List.range' rows (m + 1) = rows :: List.range' (rows + 1) m :=
      List.range'_succ _ _ 1
    rw [hrange, List.foldl_cons]
    have hrow := selfRow a rows (by omega) st h1 h2 h3 h4 h5
    obtain ⟨r1, r2, r3, r4⟩ := hrow
    have := ih (rows + 1) (flmRow a a 0 a.length st rows) (by omega)
      (fun x => (r3 x).1) (fun x => (r3 x).2) r4 r1 r2
    rw [show rows + 1 + m = rows + (m + 1) from by omega] at this
    exact this

theorem extendBack_self_diag (a : List Char) :
    ∀ d bs, extendBack a a 0 0 d d bs = (0, 0, bs + d) := by
  intro d
  induction d with
  | zero =>
    intro bs
    rw [extendBack_step_neg a a 0 0 0 0 bs (by simp)]
    simp
  | succ d ihd =>
    intro bs
    rw [extendBack_step_pos a a 0 0 (d + 1) (d + 1) bs ⟨by omega, by omega, rfl⟩]
    simp only [Nat.add_sub_cancel]
    rw [ihd (bs + 1)]
    have : bs + 1 + d = bs + (d + 1) := by omega
    rw [this]

theorem extendFwd_self_diag (a : List Char) :
    ∀ s, s ≤ a.length → extendFwd a a a.length a.length 0 0 s = a.length := by
  intro s
  generalize hm : a.length - (0 + s) = m
  induction m generalizing s with
  | zero =>
    intro hs
    have hg : ¬(0 + s < a.length ∧ 0 + s < a.length ∧
        a.getD (0 + s) ' ' = a.getD (0 + s) ' ') := fun hg => by have := hg.1; omega
    rw [extendFwd_step_neg a a a.length a.length 0 0 s hg]
    omega
  | succ m ih =>
    intro hs
    have hlt : 0 + s < a.length := by omega
    rw [extendFwd_step_pos a a a.length a.length 0 0 s ⟨hlt, hlt, rfl⟩]
    exact ih (s + 1) (by omega) (by omega)

/-- On identical sequences, `find_longest_match` over the whole range
returns the full-length block at the origin. -/
theorem flm_self (a : List Char) :
    findLongestMatch a a 0 a.length 0 a.length = (0, 0, a.length) := by
  have hfind : findLongestMatch a a 0 a.length 0 a.length =
      ((extendBack a a 0 0
          ((List.range' 0 (a.length - 0)).foldl (flmRow a a 0 a.length)
            ⟨fun _ => 0, 0, 0, 0⟩).besti
          ((List.range' 0 (a.length - 0)).foldl (flmRow a a 0 a.length)
            ⟨fun _ => 0, 0, 0, 0⟩).bestj
          ((List.range' 0 (a.length - 0)).foldl (flmRow a a 0 a.length)
            ⟨fun _ => 0, 0, 0, 0⟩).bestsize).1,
        (extendBack a a 0 0
          ((List.range' 0 (a.length - 0)).foldl (flmRow a a 0 a.length)
            ⟨fun _ => 0, 0, 0, 0⟩).besti
          ((List.range' 0 (a.length - 0)).foldl (flmRow a a 0 a.length)
            ⟨fun _ => 0, 0, 0, 0⟩).bestj
          ((List.range' 0 (a.length - 0)).foldl (flmRow a a 0 a.length)
            ⟨fun _ => 0, 0, 0, 0⟩).bestsize).2.1,
        extendFwd a a a.length a.length
          (extendBack a a 0 0
            ((List.range' 0 (a.length - 0)).foldl (flmRow a a 0 a.length)
              ⟨fun _ => 0, 0, 0, 0⟩).besti
            ((List.range' 0 (a.length - 0)).foldl (flmRow a a 0 a.length)
              ⟨fun _ => 0, 0, 0, 0⟩).bestj
            ((List.range' 0 (a.length - 0)).foldl (flmRow a a 0 a.length)
              ⟨fun _ => 0, 0, 0, 0⟩).bestsize).1
          (extendBack a a 0 0
            ((List.range' 0 (a.length - 0)).foldl (flmRow a a 0 a.length)
              ⟨fun _ => 0, 0, 0, 0⟩).besti
            ((List.range' 0 (a.length - 0)).foldl (flmRow a a 0 a.length)
              ⟨fun _ => 0, 0, 0, 0⟩).bestj
            ((List.range' 0 (a.length - 0)).foldl (flmRow a a 0 a.length)
              ⟨fun _ => 0, 0, 0, 0⟩).bestsize).2.1
          (extendBack a a 0 0
            ((List.range' 0 (a.length - 0)).foldl (flmRow a a 0 a.length)
              ⟨fun _ => 0, 0, 0, 0⟩).besti
            ((List.range' 0 (a.length - 0)).foldl (flmRow a a 0 a.length)
              ⟨fun _ => 0, 0, 0, 0⟩).bestj
            ((List.range' 0 (a.length - 0)).foldl (flmRow a a 0 a.length)
              ⟨fun _ => 0, 0, 0, 0⟩).bestsize).2.2) := rfl
  rw [Nat.sub_zero] at hfind
  rw [hfind]
  have hdiag := selfLoop a a.length 0 ⟨fun _ => 0, 0, 0, 0⟩ (by omega)
    (fun x => Nat.zero_le _) (fun x => Nat.zero_le _)
    (fun s hs => by omega) rfl (fun s hs => by omega)
  obtain ⟨hd, -⟩ := hdiag
  have hB := flmLoop_inv a a 0 0 a.length a.length 0 ⟨fun _ => 0, 0, 0, 0⟩
    (by intro x; exact ⟨Nat.le_refl 0, fun h => absurd rfl h⟩)
    ⟨le_refl _, le_refl _, le_refl _, fun h => absurd rfl h, fun _ => ⟨rfl, rfl⟩⟩
  simp only [Nat.add_zero, Nat.zero_add] at hB
  obtain ⟨-, hbi, hbj, hbs, hne, hz⟩ := hB
  have hsum : ((List.range' 0 a.length).foldl (flmRow a a 0 a.length)
        (⟨fun _ => 0, 0, 0, 0⟩ : FLState)).besti +
      ((List.range' 0 a.length).foldl (flmRow a a 0 a.length)
        (⟨fun _ => 0, 0, 0, 0⟩ : FLState)).bestsize ≤ a.length := by
    rcases Nat.eq_zero_or_pos ((List.range' 0 a.length).foldl (flmRow a a 0 a.length)
        (⟨fun _ => 0, 0, 0, 0⟩ : FLState)).bestsize with h0 | hpos
    · have := (hz h0).1
      omega
    · have := (hne (by omega)).1
      omega
  rw [← hd, extendBack_self_diag a _ _]
  have hsum2 : ((List.range' 0 a.length).foldl (flmRow a a 0 a.length)
        (⟨fun _ => 0, 0, 0, 0⟩ : FLState)).bestsize +
      ((List.range' 0 a.length).foldl (flmRow a a 0 a.length)
        (⟨fun _ => 0, 0, 0, 0⟩ : FLState)).besti ≤ a.length := by omega
  show (0, 0, extendFwd a a a.length a.length 0 0 _) = _
  rw [extendFwd_self_diag a _ hsum2]

/-- `ratio()` is 1 on identical sequences. -/
theorem smRatio_self (a : List Char) : smRatio a a = 1 := by
  rcases Nat.eq_zero_or_pos a.length with h0 | hpos
  · simp [smRatio, h0]
  · have hmt : matchTotal a a (a.length + a.length + 1) 0 a.length 0 a.length = a.length := by
      simp only [matchTotal, flm_self]
      rw [if_neg (by omega : ¬ a.length = 0)]
      rw [if_neg (by omega : ¬ (0 < 0 ∧ 0 < 0)),
        if_neg (by omega : ¬ (0 + a.length < a.length ∧ 0 + a.length < a.length))]
      omega
    simp only [smRatio, hmt]
    rw [if_neg (by omega : ¬ a.length + a.length = 0)]
    have hq : (a.length : ℚ) ≠ 0 := by
      exact_mod_cast Nat.pos_iff_ne_zero.mp hpos
    push_cast
    field_simp
    ring

theorem flmLoop_best_const (a b : List Char) (blo bhi : Nat) :
    ∀ (l : List Nat) (st : FLState), (∀ i ∈ l, jsRow a b blo bhi i = []) →
      (l.foldl (flmRow a b blo bhi) st).besti = st.besti ∧
      (l.foldl (flmRow a b blo bhi) st).bestj = st.bestj ∧
      (l.foldl (flmRow a b blo bhi) st).bestsize = st.bestsize := by
  intro l
  induction l with
  | nil => intro st _; exact ⟨rfl, rfl, rfl⟩
  | cons i t ih =>
    intro st hl
    rw [List.foldl_cons]
    have hstep : flmRow a b blo bhi st i =
        ⟨fun _ => 0, st.besti, st.bestj, st.bestsize⟩ := by
      show (⟨((jsRow a b blo bhi i).foldl (rowStep st.j2len i)
          ⟨fun _ => 0, st.besti, st.bestj, st.bestsize⟩).nj, _, _, _⟩ : FLState) = _
      rw [hl i (List.mem_cons_self _ _)]
      rfl
    rw [hstep]
    have := ih ⟨fun _ => 0, st.besti, st.bestj, st.bestsize⟩
      (fun x hx => hl x (List.mem_cons_of_mem _ hx))
    exact this

/-- With no character in common, `find_longest_match` finds nothing. -/
theorem flm_disjoint (a b : List Char) (hd : ∀ c ∈ a, c ∉ b) (ha : a ≠ []) :
    findLongestMatch a b 0 a.length 0 b.length = (0, 0, 0) := by
  have hjs : ∀ i ∈ List.range' 0 a.length, jsRow a b 0 b.length i = [] := by
    intro i hi
    have hilt : i < a.length := by
      rw [List.mem_range'_1] at hi
      omega
    have hget : a.get? i = some (a.get ⟨i, hilt⟩) := List.get?_eq_get hilt
    have hmem : a.getD i ' ' ∈ a := by
      rw [getD_of_get? hget]
      exact List.get_mem a i hilt
    have hnb : a.getD i ' ' ∉ b := hd _ hmem
    have hb2j : b2j b (a.getD i ' ') = [] := by
      simp only [b2j]
      split
      · rfl
      · rw [List.filter_eq_nil]
        intro j _
        simp only [decide_eq_true_eq]
        intro hc
        exact hnb (List.get?_mem hc)
    simp only [jsRow]
    rw [hb2j]
    rfl
  have hconst := flmLoop_best_const a b 0 b.length (List.range' 0 a.length)
    ⟨fun _ => 0, 0, 0, 0⟩ hjs
  have h1 : ((List.range' 0 a.length).foldl (flmRow a b 0 b.length)
      (⟨fun _ => 0, 0, 0, 0⟩ : FLState)).besti = 0 := hconst.1
  have h2 : ((List.range' 0 a.length).foldl (flmRow a b 0 b.length)
      (⟨fun _ => 0, 0, 0, 0⟩ : FLState)).bestj = 0 := hconst.2.1
  have h3 : ((List.range' 0 a.length).foldl (flmRow a b 0 b.length)
      (⟨fun _ => 0, 0, 0, 0⟩ : FLState)).bestsize = 0 := hconst.2.2
  have hfind : findLongestMatch a b 0 a.length 0 b.length =
      ((extendBack a b 0 0
          ((List.range' 0 (a.length - 0)).foldl (flmRow a b 0 b.length)
            ⟨fun _ => 0, 0, 0, 0⟩).besti
          ((List.range' 0 (a.length - 0)).foldl (flmRow a b 0 b.length)
            ⟨fun _ => 0, 0, 0, 0⟩).bestj
          ((List.range' 0 (a.length - 0)).foldl (flmRow a b 0 b.length)
            ⟨fun _ => 0, 0, 0, 0⟩).bestsize).1,
        (extendBack a b 0 0
          ((List.range' 0 (a.length - 0)).foldl (flmRow a b 0 b.length)
            ⟨fun _ => 0, 0, 0, 0⟩).besti
          ((List.range' 0 (a.length - 0)).foldl (flmRow a b 0 b.length)
            ⟨fun _ => 0, 0, 0, 0⟩).bestj
          ((List.range' 0 (a.length - 0)).foldl (flmRow a b 0 b.length)
            ⟨fun _ => 0, 0, 0, 0⟩).bestsize).2.1,
        extendFwd a b a.length b.length
          (extendBack a b 0 0
            ((List.range' 0 (a.length - 0)).foldl (flmRow a b 0 b.length)
              ⟨fun _ => 0, 0, 0, 0⟩).besti
            ((List.range' 0 (a.length - 0)).foldl (flmRow a b 0 b.length)
              ⟨fun _ => 0, 0, 0, 0⟩).bestj
            ((List.range' 0 (a.length - 0)).foldl (flmRow a b 0 b.length)
              ⟨fun _ => 0, 0, 0, 0⟩).bestsize).1
          (extendBack a b 0 0
            ((List.range' 0 (a.length - 0)).foldl (flmRow a b 0 b.length)
              ⟨fun _ => 0, 0, 0, 0⟩).besti
            ((List.range' 0 (a.length - 0)).foldl (flmRow a b 0 b.length)
              ⟨fun _ => 0, 0, 0, 0⟩).bestj
            ((List.range' 0 (a.length - 0)).foldl (flmRow a b 0 b.length)
              ⟨fun _ => 0, 0, 0, 0⟩).bestsize).2.1
          (extendBack a b 0 0
            ((List.range' 0 (a.length - 0)).foldl (flmRow a b 0 b.length)
              ⟨fun _ => 0, 0, 0, 0⟩).besti
            ((List.range' 0 (a.length - 0)).foldl (flmRow a b 0 b.length)
              ⟨fun _ => 0, 0, 0, 0⟩).bestj
            ((List.range' 0 (a.length - 0)).foldl (flmRow a b 0 b.length)
              ⟨fun _ => 0, 0, 0, 0⟩).bestsize).2.2) := rfl
  rw [Nat.sub_zero] at hfind
  rw [hfind, h1, h2, h3]
  rw [extendBack_step_neg a b 0 0 0 0 0 (by simp)]
  have hb0 : extendFwd a b a.length b.length 0 0 0 = 0 := by
    apply extendFwd_step_neg
    intro hc
    obtain ⟨hc1, hc2, hc3⟩ := hc
    simp only [Nat.add_zero] at hc1 hc2 hc3
    have hga : a.getD 0 ' ' ∈ a := by
      have hget : a.get? 0 = some (a.get ⟨0, hc1⟩) := List.get?_eq_get hc1
      rw [getD_of_get? hget]
      exact List.get_mem a 0 hc1
    have hgb : b.getD 0 ' ' ∈ b := by
      have hget : b.get? 0 = some (b.get ⟨0, hc2⟩) := List.get?_eq_get hc2
      rw [getD_of_get? hget]
      exact List.get_mem b 0 hc2
    rw [hc3] at hga
    exact hd _ hga (by rw [← hc3]; rw [hc3]; exact hgb)
  show (0, 0, extendFwd a b a.length b.length 0 0 0) = ((0 : Nat), (0 : Nat), (0 : Nat))
  rw [hb0]

/-- `ratio()` is 0 for non-empty sequences with no character in common. -/
theorem smRatio_disjoint (a b : List Char) (ha : a ≠ []) (hb : b ≠ [])
    (hd : ∀ c ∈ a, c ∉ b) : smRatio a b = 0 := by
  have hT : a.length + b.length ≠ 0 := by
    have : a.length ≠ 0 := fun h => ha (List.length_eq_zero.mp h)
    omega
  have hmt : matchTotal a b (a.length + b.length + 1) 0 a.length 0 b.length = 0 := by
    simp only [matchTotal, flm_disjoint a b hd ha]
    simp
  simp only [smRatio, hmt]
  rw [if_neg hT]
  norm_num

/-! ### Specification-side view of `match_party_name` (claim C1) -/

/-- The score the claim attributes to one party: the larger of the
similarities of the normalized label against the party's normalized name
and normalized abbreviation. -/
def partyScore (raw : List Char) (p : Party) : ℚ :=
  max (similarity (normalize raw) (normalize p.name))
    (similarity (normalize raw) (normalize p.abbreviation))

/-- Running maximum of party scores, seeded with `x`. -/
def maxFold (raw : List Char) (ps : List Party) (x : ℚ) : ℚ :=
  ps.foldl (fun m p => max m (partyScore raw p)) x

/-- The claim's best score: maximum over all parties (0 when empty). -/
def bestScore (raw : List Char) (ps : List Party) : ℚ := maxFold raw ps 0

/-- Id of the first party attaining at least `M`. -/
def argFind (raw : List Char) (ps : List Party) (M : ℚ) : Option Int :=
  (ps.find? (fun p => decide (M ≤ partyScore raw p))).map Party.id

/-- Id of the first party attaining the best score. -/
def firstBest (raw : List Char) (ps : List Party) : Option Int :=
  argFind raw ps (bestScore raw ps)

/-- The per-party step of the `match_party_name` fold. -/
def mpnStep (raw : List Char) (acc : Option Int × ℚ) (party : Party) : Option Int × ℚ :=
  [party.name, party.abbreviation].foldl
    (fun (acc : Option Int × ℚ) candidate =>
      let score := similarity (normalize raw) (normalize candidate)
      if acc.2 < score then (some party.id, score) else acc) acc

theorem match_party_name_eq_fold (raw : List Char) (ps : List Party) :
    match_party_name raw ps =
      (if (17 : ℚ)/20 ≤ (ps.foldl (mpnStep raw) ((none : Option Int), (0 : ℚ))).2 then
        (ps.foldl (mpnStep raw) ((none : Option Int), (0 : ℚ))).1
      else none) := rfl

theorem mpnStep_eq (raw : List Char) (acc : Option Int × ℚ) (p : Party) :
    mpnStep raw acc p =
      if acc.2 < partyScore raw p then (some p.id, partyScore raw p) else acc := by
  simp only [mpnStep, List.foldl_cons, List.foldl_nil, partyScore]
  by_cases h1 : acc.2 < similarity (normalize raw) (normalize p.name)
  · rw [if_pos h1]
    by_cases h2 : (some p.id, similarity (normalize raw) (normalize p.name)).2 <
        similarity (normalize raw) (normalize p.abbreviation)
    · rw [if_pos h2]
      simp only at h2
      rw [if_pos (lt_of_lt_of_le h1 (le_max_left _ _)),
        max_eq_right (le_of_lt h2)]
    · rw [if_neg h2]
      simp only [not_lt] at h2
      rw [if_pos (lt_of_lt_of_le h1 (le_max_left _ _)), max_eq_left h2]
  · rw [if_neg h1]
    push_neg at h1
    by_cases h2 : acc.2 < similarity (normalize raw) (normalize p.abbreviation)
    · rw [if_pos h2]
      rw [if_pos (lt_of_lt_of_le h2 (le_max_right _ _)),
        max_eq_right (le_trans h1 (le_of_lt h2))]
    · rw [if_neg h2]
      push_neg at h2
      rw [if_neg (by rw [not_lt, max_le_iff]; exact ⟨h1, h2⟩)]

theorem maxFold_cons (raw : List Char) (p : Party) (t : List Party) (x : ℚ) :
    maxFold raw (p :: t) x = maxFold raw t (max x (partyScore raw p)) := rfl

theorem maxFold_init_le (raw : List Char) :
    ∀ (ps : List Party) (x : ℚ), x ≤ maxFold raw ps x := by
  intro ps
  induction ps with
  | nil => intro x; exact le_refl x
  | cons p t ih =>
    intro x
    rw [maxFold_cons]
    exact le_trans (le_max_left _ _) (ih _)

theorem maxFold_ge_of_mem (raw : List Char) :
    ∀ (ps : List Party) (x : ℚ) (p : Party), p ∈ ps →
      partyScore raw p ≤ maxFold raw ps x := by
  intro ps
  induction ps with
  | nil => intro x p hp; cases hp
  | cons q t ih =>
    intro x p hp
    rw [maxFold_cons]
    rcases List.mem_cons.mp hp with h | h
    · subst h
      exact le_trans (le_max_right _ _) (maxFold_init_le raw t _)
    · exact ih _ p h

theorem maxFold_attained (raw : List Char) :
    ∀ (ps : List Party) (x : ℚ), maxFold raw ps x = x ∨
      ∃ q ∈ ps, maxFold raw ps x = partyScore raw q := by
  intro ps
  induction ps with
  | nil => intro x; exact Or.inl rfl
  | cons p t ih =>
    intro x
    rw [maxFold_cons]
    rcases ih (max x (partyScore raw p)) with h | ⟨q, hq, hval⟩
    · rcases max_cases x (partyScore raw p) with ⟨he, -⟩ | ⟨he, -⟩
      · exact Or.inl (by rw [h, he])
      · exact Or.inr ⟨p, List.mem_cons_self _ _, by rw [h, he]⟩
    · exact Or.inr ⟨q, List.mem_cons_of_mem _ hq, hval⟩

theorem mpn_fold (raw : List Char) :
    ∀ (ps : List Party) (acc : Option Int × ℚ),
      ps.foldl (mpnStep raw) acc =
        (if acc.2 < maxFold raw ps acc.2 then argFind raw ps (maxFold raw ps acc.2)
          else acc.1,
         maxFold raw ps acc.2) := by
  intro ps
  induction ps with
  | nil =>
    intro acc
    simp only [List.foldl_nil, maxFold, argFind]
    rw [if_neg (lt_irrefl _)]
  | cons p t ih =>
    intro acc
    rw [List.foldl_cons, mpnStep_eq, maxFold_cons]
    by_cases hA : acc.2 < partyScore raw p
    · rw [if_pos hA, max_eq_right (le_of_lt hA)]
      rw [ih (some p.id, partyScore raw p)]
      have hM : partyScore raw p ≤ maxFold raw t (partyScore raw p) := maxFold_init_le raw t _
      have hAM : acc.2 < maxFold raw t (partyScore raw p) := lt_of_lt_of_le hA hM
      rw [if_pos hAM]
      by_cases hsp : (some p.id, partyScore raw p).2 < maxFold raw t (partyScore raw p)
      · simp only at hsp
        rw [if_pos hsp]
        have hfind : (p :: t).find? (fun q => decide (maxFold raw t (partyScore raw p) ≤
            partyScore raw q)) = t.find? (fun q => decide (maxFold raw t (partyScore raw p) ≤
            partyScore raw q)) := by
          rw [List.find?_cons_of_neg]
          simp only [decide_eq_true_eq]
          exact not_le.mpr hsp
        simp only [argFind, hfind]
      · simp only [not_lt] at hsp
        rw [if_neg (by simp only [not_lt]; exact hsp)]
        have hfind : (p :: t).find? (fun q => decide (maxFold raw t (partyScore raw p) ≤
            partyScore raw q)) = some p := by
          rw [List.find?_cons_of_pos]
          simp only [decide_eq_true_eq]
          exact hsp
        simp only [argFind, hfind, Option.map_some']
    · rw [if_neg hA]
      push_neg at hA
      rw [max_eq_left hA, ih acc]
      by_cases hM : acc.2 < maxFold raw t acc.2
      · rw [if_pos hM, if_pos hM]
        have hfind : (p :: t).find? (fun q => decide (maxFold raw t acc.2 ≤
            partyScore raw q)) = t.find? (fun q => decide (maxFold raw t acc.2 ≤
            partyScore raw q)) := by
          rw [List.find?_cons_of_neg]
          simp only [decide_eq_true_eq]
          intro hc
          exact absurd hM (not_lt.mpr (le_trans hc hA))
        simp only [argFind, hfind]
      · rw [if_neg hM, if_neg hM]

/-- Evaluation bridge: reduce a concrete `smRatio` to rational arithmetic
from a kernel-computed match total. -/
theorem smRatio_eval (a b : List Char) (M T : Nat)
    (hM : matchTotal a b (a.length + b.length + 1) 0 a.length 0 b.length = M)
    (hT : a.length + b.length = T) (hT0 : T ≠ 0) :
    smRatio a b = (2 * M : ℚ) / T := by
  simp only [smRatio]
  rw [hM, hT, if_neg hT0]

/-- The full input/output characterization of `match_party_name`:
threshold test on the running maximum, first attaining party wins. -/
theorem mpn_spec (raw : List Char) (ps : List Party) :
    match_party_name raw ps =
      if (17 : ℚ)/20 ≤ bestScore raw ps then firstBest raw ps else none := by
  rw [match_party_name_eq_fold, mpn_fold]
  show (if (17 : ℚ)/20 ≤ maxFold raw ps 0 then
      (if (0 : ℚ) < maxFold raw ps 0 then argFind raw ps (maxFold raw ps 0) else none)
    else none) = _
  by_cases h : (17 : ℚ)/20 ≤ maxFold raw ps 0
  · rw [if_pos h, if_pos (lt_of_lt_of_le (by norm_num) h)]
    rw [show bestScore raw ps = maxFold raw ps 0 from rfl] at *
    rw [if_pos h]
    rfl
  · rw [if_neg h]
    rw [show bestScore raw ps = maxFold raw ps 0 from rfl]
    rw [if_neg h]

/-- C9 (counterexample): `similarity` is not symmetric.  difflib's greedy
block selection gives ratio 1/4 for ("tide", "diet") but 1/2 for
("diet", "tide"). -/
theorem C9_similarity_not_symmetric :
    similarity "tide".toList "diet".toList = 1/4 ∧
    similarity "diet".toList "tide".toList = 1/2 ∧
    ¬ (similarity "tide".toList "diet".toList = similarity "diet".toList "tide".toList) := by
  have h1 : similarity "tide".toList "diet".toList = 1/4 := by
    rw [show similarity "tide".toList "diet".toList = smRatio "tide".toList "diet".toList
      from rfl]
    rw [smRatio_eval "tide".toList "diet".toList 1 8 (by decide) (by decide) (by decide)]
    norm_num
  have h2 : similarity "diet".toList "tide".toList = 1/2 := by
    rw [show similarity "diet".toList "tide".toList = smRatio "diet".toList "tide".toList
      from rfl]
    rw [smRatio_eval "diet".toList "tide".toList 2 8 (by decide) (by decide) (by decide)]
    norm_num
  refine ⟨h1, h2, ?_⟩
  rw [h1, h2]
  norm_num

/-- C9 (amended): `similarity(a, b)` lies in [0, 1], is 1.0 on identical
strings, and 0.0 on non-empty strings sharing no character; the claimed
symmetry does not hold and is dropped. -/
theorem C9_similarity_amended :
    (∀ a b : List Char, 0 ≤ similarity a b ∧ similarity a b ≤ 1) ∧
    (∀ a : List Char, similarity a a = 1) ∧
    (∀ a b : List Char, a ≠ [] → b ≠ [] → (∀ c ∈ a, c ∉ b) → similarity a b = 0) :=
  ⟨fun a b => ⟨smRatio_nonneg a b, smRatio_le_one a b⟩,
   fun a => smRatio_self a,
   fun a b ha hb hd => smRatio_disjoint a b ha hb hd⟩

/-- Witness for C9 (amended): concrete instantiations of all three parts. -/
theorem C9_similarity_amended_witness :
    (0 ≤ similarity "ab".toList "cd".toList ∧ similarity "ab".toList "cd".toList ≤ 1) ∧
    similarity "groenlinks".toList "groenlinks".toList = 1 ∧
    similarity "ab".toList "cd".toList = 0 :=
  ⟨C9_similarity_amended.1 "ab".toList "cd".toList,
   C9_similarity_amended.2.1 "groenlinks".toList,
   C9_similarity_amended.2.2 "ab".toList "cd".toList (by decide) (by decide) (by decide)⟩

theorem find?_isSome_of_mem {α : Type} {p : α → Bool} {l : List α} {q : α}
    (hq : q ∈ l) (hpq : p q = true) : ∃ r, l.find? p = some r := by
  induction l with
  | nil => cases hq
  | cons x t ih =>
    by_cases hx : p x
    · exact ⟨x, List.find?_cons_of_pos _ hx⟩
    · rcases List.mem_cons.mp hq with h | h
      · subst h; exact absurd hpq hx
      · obtain ⟨r, hr⟩ := ih h
        exact ⟨r, by rw [List.find?_cons_of_neg _ hx]; exact hr⟩

/-- C1: `match_party_name` scores the normalized label against the
normalized name and abbreviation of each party, keeps the running maximum,
and returns the first party attaining it iff the best score is ≥ 0.85;
a label whose normal form equals a canonical name scores 1.0 and matches,
and "Partij van de Ouderen" against "Partij voor de Dieren" scores
17/21 < 0.85 and yields None. -/
theorem C1_match_party_name_spec :
    (∀ raw ps, match_party_name raw ps =
      if (17 : ℚ)/20 ≤ bestScore raw ps then firstBest raw ps else none) ∧
    (∀ raw ps (p : Party), p ∈ ps → normalize raw = normalize p.name →
      ∃ i, match_party_name raw ps = some i) ∧
    match_party_name "GroenLinks".toList [⟨7, "GroenLinks".toList, "GL".toList⟩] = some 7 ∧
    similarity (normalize "GroenLinks".toList) (normalize "GroenLinks".toList) = 1 ∧
    match_party_name "Partij van de Ouderen".toList
      [⟨1, "Partij voor de Dieren".toList, "PvdD".toList⟩] = none ∧
    similarity (normalize "Partij van de Ouderen".toList)
      (normalize "Partij voor de Dieren".toList) < (17 : ℚ)/20 := by
  have hs_oud : similarity (normalize "Partij van de Ouderen".toList)
      (normalize "Partij voor de Dieren".toList) = 17/21 := by
    rw [show normalize "Partij van de Ouderen".toList =
      "partij van de ouderen".toList from by decide]
    rw [show normalize "Partij voor de Dieren".toList =
      "partij voor de dieren".toList from by decide]
    rw [show similarity "partij van de ouderen".toList "partij voor de dieren".toList =
      smRatio "partij van de ouderen".toList "partij voor de dieren".toList from rfl]
    rw [smRatio_eval _ _ 17 42 (by decide) (by decide) (by decide)]
    norm_num
  refine ⟨mpn_spec, ?_, ?_, ?_, ?_, ?_⟩
  · intro raw ps p hp heq
    have hsim : similarity (normalize raw) (normalize p.name) = 1 := by
      rw [heq]
      exact smRatio_self _
    have hps : (1 : ℚ) ≤ partyScore raw p := by
      calc (1 : ℚ) = similarity (normalize raw) (normalize p.name) := hsim.symm
      _ ≤ partyScore raw p := le_max_left _ _
    have hbest : (1 : ℚ) ≤ bestScore raw ps :=
      le_trans hps (maxFold_ge_of_mem raw ps 0 p hp)
    rw [mpn_spec, if_pos (le_trans (by norm_num) hbest)]
    rcases maxFold_attained raw ps 0 with h0 | ⟨q, hq, hval⟩
    · rw [show bestScore raw ps = maxFold raw ps 0 from rfl, h0] at hbest
      norm_num at hbest
    · obtain ⟨r, hr⟩ := find?_isSome_of_mem
        (p := fun x => decide (bestScore raw ps ≤ partyScore raw x)) hq
        (by simp only [decide_eq_true_eq]
            exact le_of_eq hval)
      exact ⟨r.id, by simp only [firstBest, argFind, hr, Option.map_some']⟩
  · have hn : normalize "GroenLinks".toList = "groenlinks".toList := by decide
    have hg : normalize "GL".toList = "gl".toList := by decide
    have hs1 : similarity "groenlinks".toList "groenlinks".toList = 1 := smRatio_self _
    have hs2 : similarity "groenlinks".toList "gl".toList = 1/3 := by
      rw [show similarity "groenlinks".toList "gl".toList =
        smRatio "groenlinks".toList "gl".toList from rfl]
      rw [smRatio_eval _ _ 2 12 (by decide) (by decide) (by decide)]
      norm_num
    have hscore : partyScore "GroenLinks".toList
        ⟨7, "GroenLinks".toList, "GL".toList⟩ = 1 := by
      simp only [partyScore, hn, hg, hs1, hs2]
      norm_num
    have hbest : bestScore "GroenLinks".toList
        [⟨7, "GroenLinks".toList, "GL".toList⟩] = 1 := by
      simp only [bestScore, maxFold, List.foldl_cons, List.foldl_nil, hscore]
      norm_num
    rw [mpn_spec, hbest, if_pos (by norm_num)]
    simp only [firstBest, argFind, hbest]
    rw [List.find?_cons_of_pos _
      (by simp only [decide_eq_true_eq, hscore, hbest, le_refl])]
    rfl
  · rw [show normalize "GroenLinks".toList = "groenlinks".toList from by decide]
    exact smRatio_self _
  · have hn1 : normalize "Partij van de Ouderen".toList =
        "partij van de ouderen".toList := by decide
    have hn2 : normalize "Partij voor de Dieren".toList =
        "partij voor de dieren".toList := by decide
    have hn3 : normalize "PvdD".toList = "pvdd".toList := by decide
    have hs1 : similarity "partij van de ouderen".toList
        "partij voor de dieren".toList = 17/21 := by
      rw [hn1, hn2] at hs_oud
      exact hs_oud
    have hs2 : similarity "partij van de ouderen".toList "pvdd".toList = 8/25 := by
      rw [show similarity "partij van de ouderen".toList "pvdd".toList =
        smRatio "partij van de ouderen".toList "pvdd".toList from rfl]
      rw [smRatio_eval _ _ 4 25 (by decide) (by decide) (by decide)]
      norm_num
    have hscore : partyScore "Partij van de Ouderen".toList
        ⟨1, "Partij voor de Dieren".toList, "PvdD".toList⟩ = 17/21 := by
      simp only [partyScore, hn1, hn2, hn3, hs1, hs2]
      norm_num
    have hbest : bestScore "Partij van de Ouderen".toList
        [⟨1, "Partij voor de Dieren".toList, "PvdD".toList⟩] = 17/21 := by
      simp only [bestScore, maxFold, List.foldl_cons, List.foldl_nil, hscore]
      norm_num
    rw [mpn_spec, hbest, if_neg (by norm_num)]
  · rw [hs_oud]
    norm_num

/-- Witness for C1: the perfect-normal-form-match clause applied to a
concrete registry. -/
theorem C1_match_party_name_spec_witness :
    ∃ i, match_party_name "pvda".toList [⟨2, "PvdA".toList, "P.v.d.A.".toList⟩] = some i :=
  C1_match_party_name_spec.2.1 "pvda".toList [⟨2, "PvdA".toList, "P.v.d.A.".toList⟩]
    ⟨2, "PvdA".toList, "P.v.d.A.".toList⟩ (List.mem_singleton.mpr rfl) (by decide)

/-- Spec-side tier 1: the id of the first party whose name or abbreviation
matches the (already lowercased) label case-insensitively. -/
def tierExact (lower : List Char) (ps : List Party) : Option Int :=
  (ps.find? (fun p =>
    decide (lower = pyLower p.name ∨ lower = pyLower p.abbreviation))).map Party.id

/-- Spec-side tier 2: alias-table lookup of the lowercased label, then the
tier-1 check applied to the lowercased alias target. -/
def tierAlias (lower : List Char) (ps : List Party) : Option Int :=
  (aliasLookup lower).bind (fun target => tierExact (pyLower target) ps)

/-- Spec-side tier 3: the id of the first party with bidirectional
substring containment between the lowercased label and the party's
lowercased name or abbreviation. -/
def tierSub (lower : List Char) (ps : List Party) : Option Int :=
  (ps.find? (fun p =>
    decide (pyLower p.name <:+: lower ∨ lower <:+: pyLower p.name ∨
      pyLower p.abbreviation <:+: lower ∨ lower <:+: pyLower p.abbreviation))).map Party.id

theorem findSome?_if_eq {α : Type} (p : α → Prop) [DecidablePred p] (g : α → Int) :
    ∀ l : List α,
      l.findSome? (fun x => if p x then some (g x) else none) =
        (l.find? (fun x => decide (p x))).map g
  | [] => rfl
  | x :: t => by
    by_cases h : p x
    · rw [List.findSome?_cons]
      simp only [if_pos h]
      rw [List.find?_cons_of_pos t
        (show (fun x => decide (p x)) x = true from decide_eq_true h)]
      rfl
    · rw [List.findSome?_cons]
      simp only [if_neg h]
      rw [List.find?_cons_of_neg t
        (show ¬(fun x => decide (p x)) x = true by simpa using h)]
      exact findSome?_if_eq p g t

theorem tierExact_code (lower : List Char) (ps : List Party) :
    ps.findSome? (fun p =>
      if lower = pyLower p.name ∨ lower = pyLower p.abbreviation then some p.id else none) =
    tierExact lower ps :=
  findSome?_if_eq _ _ ps

theorem tierSub_code (lower : List Char) (ps : List Party) :
    ps.findSome? (fun p =>
      if pyLower p.name <:+: lower ∨ lower <:+: pyLower p.name then some p.id
      else if pyLower p.abbreviation <:+: lower ∨ lower <:+: pyLower p.abbreviation then
        some p.id
      else none) =
    tierSub lower ps := by
  have hf : (fun p : Party =>
      if pyLower p.name <:+: lower ∨ lower <:+: pyLower p.name then some p.id
      else if pyLower p.abbreviation <:+: lower ∨ lower <:+: pyLower p.abbreviation then
        some p.id
      else none) =
      (fun p : Party =>
        if pyLower p.name <:+: lower ∨ lower <:+: pyLower p.name ∨
            pyLower p.abbreviation <:+: lower ∨ lower <:+: pyLower p.abbreviation then
          some p.id
        else none) := by
    funext p
    by_cases h1 : pyLower p.name <:+: lower ∨ lower <:+: pyLower p.name
    · rcases h1 with h | h <;> simp [h]
    · by_cases h2 : pyLower p.abbreviation <:+: lower ∨ lower <:+: pyLower p.abbreviation
      · push_neg at h1
        rcases h2 with h | h <;> simp [h, h1.1, h1.2]
      · push_neg at h1
        push_neg at h2
        simp [h1.1, h1.2, h2.1, h2.2]
  rw [hf]
  exact findSome?_if_eq _ _ ps

theorem match_party_tiers (name : List Char) (ps : List Party) :
    match_party name ps =
      ((tierExact (pyLower (pyStrip name)) ps).or
        ((tierAlias (pyLower (pyStrip name)) ps).or
          (tierSub (pyLower (pyStrip name)) ps))) := by
  unfold match_party
  simp only [tierExact_code, tierSub_code]
  show (match tierExact (pyLower (pyStrip name)) ps with
    | some i => some i
    | none =>
      match tierAlias (pyLower (pyStrip name)) ps with
      | some i => some i
      | none => tierSub (pyLower (pyStrip name)) ps) = _
  cases tierExact (pyLower (pyStrip name)) ps with
  | some i => rfl
  | none =>
    cases tierAlias (pyLower (pyStrip name)) ps with
    | some i => rfl
    | none => rfl

/-- C2: `match_party` is the ordered composition of three tiers — first
case-insensitive exact equality on name or abbreviation, then alias-table
lookup followed by the same equality check on the alias target, then
bidirectional substring containment — each returning the first matching
party's id, with `none` when all tiers fail; "Partij van de Arbeid" misses
tier 1 but resolves through the alias table to the same id that the label
"PvdA" gets from a case-insensitive abbreviation match. -/
theorem C2_match_party_tiers :
    (∀ name ps, match_party name ps =
      ((tierExact (pyLower (pyStrip name)) ps).or
        ((tierAlias (pyLower (pyStrip name)) ps).or
          (tierSub (pyLower (pyStrip name)) ps)))) ∧
    aliasLookup (pyLower (pyStrip "Partij van de Arbeid".toList)) = some "PvdA".toList ∧
    match_party "Partij van de Arbeid".toList
      [⟨7, "GroenLinks".toList, "GL".toList⟩,
       ⟨3, "Partij van de Arbeid Amsterdam".toList, "PvdA".toList⟩] = some 3 ∧
    match_party "pvda".toList
      [⟨7, "GroenLinks".toList, "GL".toList⟩,
       ⟨3, "Partij van de Arbeid Amsterdam".toList, "PvdA".toList⟩] = some 3 ∧
    tierExact (pyLower (pyStrip "Partij van de Arbeid".toList))
      [⟨7, "GroenLinks".toList, "GL".toList⟩,
       ⟨3, "Partij van de Arbeid Amsterdam".toList, "PvdA".toList⟩] = none ∧
    tierExact (pyLower (pyStrip "pvda".toList))
      [⟨7, "GroenLinks".toList, "GL".toList⟩,
       ⟨3, "Partij van de Arbeid Amsterdam".toList, "PvdA".toList⟩] = some 3 :=
  ⟨match_party_tiers, by decide, by decide, by decide, by decide, by decide⟩

/-- Spec-side surname key, phrased as in the specification: split on
whitespace, drop leading initials, drop exactly one further token when the
first remaining token starts uppercase, is not an initial, and more than
one token remains; join with single spaces and lowercase. -/
def surnameKey (full_name : List Char) : List Char :=
  let toks := (pySplit (pyStrip full_name)).dropWhile is_initial
  let toks :=
    match toks with
    | [] => []
    | p :: rest =>
      if pyIsUpperChar (p.headD ' ') = true ∧ is_initial p = false ∧
          1 < (p :: rest).length then rest
      else p :: rest
  pyLower (joinSpace toks)

theorem extract_last_name_eq_surnameKey (s : List Char) :
    extract_last_name s = surnameKey s := by
  simp only [extract_last_name, surnameKey]
  cases hd : (pySplit (pyStrip s)).dropWhile is_initial with
  | nil => rfl
  | cons p r =>
    cases r with
    | nil => simp
    | cons q r' =>
      by_cases h1 : pyIsUpperChar (p.headD ' ') = true
      · by_cases h2 : is_initial p = true
        · simp [h1, h2]
        · simp [h1, Bool.eq_false_iff.mpr h2]
      · simp [Bool.eq_false_iff.mpr h1]

/-- C3: the surname key splits on whitespace, drops leading initials
(dots stripped: alphabetic, all uppercase, length ≤ 3), drops exactly one
further first-name token when the first remaining token is capitalized,
not an initial, and not alone, and returns the rest joined by single
spaces, lowercased; "R.B. Havelaar" and "Rob Havelaar" both give
"havelaar", "Melanie van der Horst" gives "van der horst", and a single
remaining token passes through lowercased. -/
theorem C3_extract_surname_key :
    (∀ s, extract_last_name s = surnameKey s) ∧
    extract_last_name "R.B. Havelaar".toList = "havelaar".toList ∧
    extract_last_name "Rob Havelaar".toList = "havelaar".toList ∧
    extract_last_name "Melanie van der Horst".toList = "van der horst".toList ∧
    (∀ s p, (pySplit (pyStrip s)).dropWhile is_initial = [p] →
      extract_last_name s = pyLower p) := by
  refine ⟨extract_last_name_eq_surnameKey, by decide, by decide, by decide, ?_⟩
  intro s p hd
  simp only [extract_last_name]
  rw [hd]
  simp [joinSpace]

/-- Witness for C3: the single-token clause applied to the name "van". -/
theorem C3_extract_surname_key_witness :
    (pySplit (pyStrip "van".toList)).dropWhile is_initial = ["van".toList] ∧
    extract_last_name "van".toList = pyLower "van".toList :=
  ⟨by decide, C3_extract_surname_key.2.2.2.2 "van".toList "van".toList (by decide)⟩

/-- C4 counterexample: the claim's separator list for the both-years
grammar is wrong.  "1 januari 2025 en 2 februari 2026" is a
`D MONTH YYYY en D MONTH YYYY` range, but `_PERIOD_BOTH_YEARS` separates
the two dates with the character class `[t/–-]+`, which rejects "en"; the
call falls through to the single-date grammar and returns only
`(None, date(2025, 1, 1))` instead of both dates. -/
theorem C4_both_years_counterexample :
    extract_field_period "1 januari 2025 en 2 februari 2026".toList none =
      .ok (none, some ⟨2025, 1, 1⟩) ∧
    extract_field_period "1 januari 2025 en 2 februari 2026".toList none ≠
      .ok (some ⟨2025, 1, 1⟩, some ⟨2026, 2, 2⟩) := by
  refine ⟨by decide, ?_⟩
  rw [show extract_field_period "1 januari 2025 en 2 februari 2026".toList none =
    .ok (none, some ⟨2025, 1, 1⟩) from by decide]
  decide

/-- C4 amended: the both-years grammar
`(\d{1,2})\s+(month)\s+(\d{4})\s*[t/–-]+\s*(\d{1,2})\s+(month)\s+(\d{4})`
is tried first, and whenever it matches, `_extract_field_period` returns
both dates built from their own explicit years (raising on invalid
calendar dates); its separator is a non-empty run of the characters
`t`, `/`, `–`, `-` with optional surrounding whitespace — so a hyphen or
en-dash range matches, while "en" and "t/m" separators do not. -/
theorem C4_both_years_amended :
    (∀ text fb d1 m1 y1 d2 m2 y2,
      reSearch pBothYears text = some (d1, m1, y1, d2, m2, y2) →
      extract_field_period text fb =
        match parse_nl_date d1 m1 y1, parse_nl_date d2 m2 y2 with
        | .ok a, .ok b => .ok (some a, some b)
        | _, _ => .error ()) ∧
    extract_field_period "Veldwerk liep van 27 januari 2025 - 9 februari 2026.".toList
      (some 2031) = .ok (some ⟨2025, 1, 27⟩, some ⟨2026, 2, 9⟩) ∧
    extract_field_period "27 januari 2026 – 9 februari 2026".toList none =
      .ok (some ⟨2026, 1, 27⟩, some ⟨2026, 2, 9⟩) ∧
    reSearch pBothYears "1 januari 2025 en 2 februari 2026".toList = none ∧
    reSearch pBothYears "27 januari 2026 t/m 9 februari 2026".toList = none := by
  refine ⟨?_, by decide, by decide, by decide, by decide⟩
  intro text fb d1 m1 y1 d2 m2 y2 h
  simp only [extract_field_period]
  rw [h]

/-- Witness for C4's amended theorem: the both-years branch applied to a
concrete hyphen-separated range. -/
theorem C4_both_years_amended_witness :
    reSearch pBothYears "3 maart 2025 - 4 april 2026".toList =
      some (3, 3, 2025, 4, 4, 2026) ∧
    extract_field_period "3 maart 2025 - 4 april 2026".toList none =
      match parse_nl_date 3 3 2025, parse_nl_date 4 4 2026 with
      | .ok a, .ok b => .ok (some a, some b)
      | _, _ => .error () :=
  ⟨by decide,
    C4_both_years_amended.1 "3 maart 2025 - 4 april 2026".toList none
      3 3 2025 4 4 2026 (by decide)⟩

/-- Calendar validity of every date `_extract_field_period` would build on
a given input: mirrors the grammar cascade and demands `date()`-validity
of the constructed day/month/year triples. -/
def periodDatesValid (text : List Char) (fb : Option Nat) : Bool :=
  match reSearch pBothYears text with
  | some (d1, m1, y1, d2, m2, y2) => (pyDate y1 m1 d1).isSome && (pyDate y2 m2 d2).isSome
  | none =>
  match reSearch pSameYear text with
  | some (d1, m1, d2, m2, y) => (pyDate y m1 d1).isSome && (pyDate y m2 d2).isSome
  | none =>
  match reSearch pNoYear text, fb with
  | some (d1, m1, d2, m2), some fy =>
    if fy ≠ 0 then (pyDate fy m1 d1).isSome && (pyDate fy m2 d2).isSome
    else
      match reSearch pDateSingle text with
      | some (d, m, y) => (pyDate y m d).isSome
      | none => true
  | _, _ =>
    match reSearch pDateSingle text with
    | some (d, m, y) => (pyDate y m d).isSome
    | none => true

/-- C5 counterexample: `_extract_field_period` is not exception-free.  On
"31 februari 2026" the single-date grammar matches, `_parse_nl_date`
calls `date(2026, 2, 31)`, and the `ValueError` escapes (there is no
handler), instead of the field degrading to `None`. -/
theorem C5_no_raise_counterexample :
    extract_field_period "31 februari 2026".toList none = .error () := by
  decide

/-- C5 amended: `_extract_sample_size` indeed never raises (its `int` call
is wrapped in `try/except ValueError`), but `_extract_field_period`
returns normally exactly when every date the matching grammar builds is
calendar-valid; a matched but invalid date raises `ValueError`. -/
theorem C5_no_raise_amended :
    (∀ text, ∃ r, extract_sample_size text = .ok r) ∧
    (∀ text fb, (∃ r, extract_field_period text fb = .ok r) ↔
      periodDatesValid text fb = true) := by
  constructor
  · intro text
    simp only [extract_sample_size]
    cases reSearch pSampleSize text with
    | none => exact ⟨none, rfl⟩
    | some raw =>
      show ∃ r,
        (match pyIntOfString (raw.filter (fun c => c ≠ '.' && c ≠ ',')) with
          | some n => Except.ok (some n)
          | none => Except.ok none) = Except.ok r
      cases pyIntOfString (raw.filter (fun c => c ≠ '.' && c ≠ ',')) with
      | none => exact ⟨none, rfl⟩
      | some n => exact ⟨some n, rfl⟩
  · intro text fb
    simp only [extract_field_period, periodDatesValid, parse_nl_date]
    generalize reSearch pBothYears text = o1
    generalize reSearch pSameYear text = o2
    generalize reSearch pNoYear text = o3
    generalize reSearch pDateSingle text = o4
    rcases o1 with _ | ⟨d1, m1, y1, d2, m2, y2⟩
    · rcases o2 with _ | ⟨e1, n1, e2, n2, y⟩
      · rcases o3 with _ | ⟨f1, g1, f2, g2⟩
        · rcases o4 with _ | ⟨d, m, y⟩
          · simp
          · cases hq : pyDate y m d <;> simp [hq]
        · rcases fb with _ | fy
          · rcases o4 with _ | ⟨d, m, y⟩
            · simp
            · cases hq : pyDate y m d <;> simp [hq]
          · by_cases hfy : fy ≠ 0
            · cases hq1 : pyDate fy g1 f1 <;> cases hq2 : pyDate fy g2 f2 <;>
                simp [hfy, hq1, hq2]
            · rcases o4 with _ | ⟨d, m, y⟩
              · simp [hfy]
              · cases hq : pyDate y m d <;> simp [hfy, hq]
      · cases hq1 : pyDate y n1 e1 <;> cases hq2 : pyDate y n2 e2 <;> simp [hq1, hq2]
    · cases hq1 : pyDate y1 m1 d1 <;> cases hq2 : pyDate y2 m2 d2 <;> simp [hq1, hq2]

/-- C6 counterexample: a record with a truthy party name and `seats = 0`
is emitted with `seats = None`, not `0`: the chain
`row.get("seats") or row.get("zetels")` treats the integer `0` as falsy,
so with no `zetels` key the chain yields `None` and the
`if seats is not None:` coercion is skipped. -/
theorem C6_seats_zero_counterexample :
    parse_results_from_values [some [("party".toList, PyVal.vstr "X".toList),
      ("seats".toList, PyVal.vint 0)]] =
      [⟨"X".toList, none, none⟩] ∧
    parse_results_from_values [some [("party".toList, PyVal.vstr "X".toList),
      ("seats".toList, PyVal.vint 0)]] ≠
      [⟨"X".toList, none, some 0⟩] := by
  refine ⟨rfl, ?_⟩
  rw [show parse_results_from_values [some [("party".toList, PyVal.vstr "X".toList),
      ("seats".toList, PyVal.vint 0)]] = [⟨"X".toList, none, none⟩] from rfl]
  decide

/-- The percentage field as the loop computes it: `None` when absent,
else `float(·) * 100` with failures dropped to `None`. -/
def pctSpec (row : PyRow) : Option ℚ :=
  match rowGet row "percentage".toList with
  | .vnone => none
  | v =>
    match pyFloat v with
    | some q => some (q * 100)
    | none => none

/-- The seats field as the loop computes it: the truthiness-based chain
`row.get("seats") or row.get("zetels")` feeds `int(round(float(·)))`;
`None` when the chain yields `None` (including a falsy `seats` value with
no truthy `zetels`) or when the float coercion fails. -/
def seatsSpec (row : PyRow) : Option Int :=
  match pyOr (rowGet row "seats".toList) (rowGet row "zetels".toList) with
  | .vnone => none
  | v =>
    match pyFloat v with
    | some q => some (pyRound q)
    | none => none

theorem pyRound_dist (q : ℚ) : |(pyRound q : ℚ) - q| ≤ 1/2 := by
  have h1 : (⌊q⌋ : ℚ) ≤ q := Int.floor_le q
  have h2 : q < ⌊q⌋ + 1 := Int.lt_floor_add_one q
  simp only [pyRound]
  by_cases hc1 : q - (⌊q⌋ : ℚ) < 1/2
  · rw [if_pos hc1, abs_le]
    constructor <;> linarith
  · rw [if_neg hc1]
    by_cases hc2 : (1 : ℚ)/2 < q - (⌊q⌋ : ℚ)
    · rw [if_pos hc2]
      push_cast
      rw [abs_le]
      constructor <;> linarith
    · rw [if_neg hc2]
      have he : q - (⌊q⌋ : ℚ) = 1/2 := le_antisymm (not_lt.mp hc2) (not_lt.mp hc1)
      by_cases hc3 : ⌊q⌋ % 2 = 0
      · rw [if_pos hc3, abs_le]
        constructor <;> linarith
      · rw [if_neg hc3]
        push_cast
        rw [abs_le]
        constructor <;> linarith

/-- C6 amended: every record whose party-name chain
`row.get("party") or row.get("partij") or row.get("naam")` is truthy is
emitted exactly once, with percentage and seats given by `pctSpec` and
`seatsSpec`; the rounded value is within 1/2 of the float; a float-encoded
`"4.0"` gives 4 seats; a name-only record is emitted with both fields
`None`; and a falsy `seats` with a truthy `zetels` takes the `zetels`
value. -/
theorem C6_seats_amended :
    (∀ row : PyRow,
      truthy (pyOr (rowGet row "party".toList)
        (pyOr (rowGet row "partij".toList) (rowGet row "naam".toList))) = true →
      parse_results_from_values [some row] =
        [⟨pyStrOfVal (pyOr (rowGet row "party".toList)
            (pyOr (rowGet row "partij".toList) (rowGet row "naam".toList))),
          pctSpec row, seatsSpec row⟩]) ∧
    (∀ q : ℚ, |(pyRound q : ℚ) - q| ≤ 1/2) ∧
    parse_results_from_values [some [("party".toList, PyVal.vstr "X".toList),
      ("seats".toList, PyVal.vstr "4.0".toList)]] =
      [⟨"X".toList, none, some 4⟩] ∧
    parse_results_from_values [some [("naam".toList, PyVal.vstr "Y".toList)]] =
      [⟨"Y".toList, none, none⟩] ∧
    parse_results_from_values [some [("party".toList, PyVal.vstr "X".toList),
      ("seats".toList, PyVal.vint 0), ("zetels".toList, PyVal.vint 3)]] =
      [⟨"X".toList, none, some 3⟩] := by
  refine ⟨?_, pyRound_dist, ?_, rfl, ?_⟩
  · intro row h
    have hp : parseRow row =
        some ⟨pyStrOfVal (pyOr (rowGet row "party".toList)
            (pyOr (rowGet row "partij".toList) (rowGet row "naam".toList))),
          pctSpec row, seatsSpec row⟩ := by
      simp only [parseRow, pctSpec, seatsSpec]
      rw [h]
      simp
    simp [parse_results_from_values, hp]
  · have h1 : parse_results_from_values [some [("party".toList, PyVal.vstr "X".toList),
        ("seats".toList, PyVal.vstr "4.0".toList)]] =
        [⟨"X".toList, none,
          some (pyRound (((40 : ℕ) : ℚ) / (10 : ℚ) ^ 1 * (10 : ℚ) ^ (0 : ℤ)))⟩] := rfl
    have h2 : pyRound (((40 : ℕ) : ℚ) / (10 : ℚ) ^ 1 * (10 : ℚ) ^ (0 : ℤ)) = 4 := by
      norm_num [pyRound]
    rw [h1, h2]
  · have h1 : parse_results_from_values [some [("party".toList, PyVal.vstr "X".toList),
        ("seats".toList, PyVal.vint 0), ("zetels".toList, PyVal.vint 3)]] =
        [⟨"X".toList, none, some (pyRound ((3 : ℤ) : ℚ))⟩] := rfl
    have h2 : pyRound ((3 : ℤ) : ℚ) = 3 := by
      norm_num [pyRound]
    rw [h1, h2]

/-- Witness for C6's amended theorem: the emission clause applied to a
concrete one-key record. -/
theorem C6_seats_amended_witness :
    parse_results_from_values [some [("party".toList, PyVal.vstr "Z".toList)]] =
      [⟨pyStrOfVal (pyOr (rowGet [("party".toList, PyVal.vstr "Z".toList)] "party".toList)
          (pyOr (rowGet [("party".toList, PyVal.vstr "Z".toList)] "partij".toList)
            (rowGet [("party".toList, PyVal.vstr "Z".toList)] "naam".toList))),
        pctSpec [("party".toList, PyVal.vstr "Z".toList)],
        seatsSpec [("party".toList, PyVal.vstr "Z".toList)]⟩] :=
  C6_seats_amended.1 [("party".toList, PyVal.vstr "Z".toList)] (by decide)

/-- The first character exists and is not whitespace. -/
def headNS (l : List Char) : Prop :=
  ∃ c t, l = c :: t ∧ isSpacePy c = false

/-- The last character exists and is not whitespace. -/
def lastNS (l : List Char) : Prop :=
  ∃ t c, l = t ++ [c] ∧ isSpacePy c = false

/-- A stripped non-empty paragraph: non-space first and last characters. -/
def goodPara (p : List Char) : Prop := headNS p ∧ lastNS p

/-- The post-loop flush of `chunk_pages`. -/
def finalizeChunks (st : ChunkSt) : List Chunk :=
  if !(pyStrip st.cur).isEmpty then st.chunks ++ [⟨pyStrip st.cur, st.cps, st.cpe⟩]
  else st.chunks

theorem headNS_ne_nil {x : List Char} (h : headNS x) : x ≠ [] := by
  obtain ⟨c, t, rfl, -⟩ := h
  simp

theorem lastNS_append {l y : List Char} (h : lastNS y) : lastNS (l ++ y) := by
  obtain ⟨t, c, rfl, hc⟩ := h
  exact ⟨l ++ t, c, by simp, hc⟩

theorem dropWhile_keep (x v : List Char) (hx : headNS x) :
    ∀ u, ∃ u', (u ++ (x ++ v)).dropWhile isSpacePy = u' ++ (x ++ v)
  | [] => by
    obtain ⟨c, t, rfl, hc⟩ := hx
    exact ⟨[], by simp [List.dropWhile_cons, hc]⟩
  | a :: u => by
    by_cases ha : isSpacePy a
    · obtain ⟨u', hu'⟩ := dropWhile_keep x v hx u
      exact ⟨u', by simp [List.dropWhile_cons, ha, hu']⟩
    · exact ⟨a :: u, by simp [List.dropWhile_cons, ha]⟩

theorem strip_infix {x l : List Char} (hh : headNS x) (hl : lastNS x)
    (hi : x <:+: l) : x <:+: pyStrip l := by
  obtain ⟨u, v, rfl⟩ := hi
  obtain ⟨u', hu'⟩ := dropWhile_keep x v hh (u)
  have hxr : headNS x.reverse := by
    obtain ⟨t, c, rfl, hc⟩ := hl
    exact ⟨c, t.reverse, by simp, hc⟩
  have step1 : (u ++ (x ++ v)).dropWhile isSpacePy = u' ++ (x ++ v) := hu'
  have hrev : (u' ++ (x ++ v)).reverse = v.reverse ++ (x.reverse ++ u'.reverse) := by
    simp [List.reverse_append, List.append_assoc]
  obtain ⟨v', hv'⟩ := dropWhile_keep x.reverse u'.reverse hxr v.reverse
  refine ⟨u', v'.reverse, ?_⟩
  have : pyStrip (u ++ x ++ v) =
      ((v' ++ (x.reverse ++ u'.reverse)).reverse) := by
    simp only [pyStrip]
    rw [show u ++ x ++ v = u ++ (x ++ v) from by simp [List.append_assoc], step1, hrev, hv']
  rw [List.append_assoc, this]
  simp [List.reverse_append, List.append_assoc]

theorem strip_ne_nil {l : List Char} (h : lastNS l) : pyStrip l ≠ [] := by
  obtain ⟨t, c, rfl, hc⟩ := h
  have hx : [c] <:+: pyStrip (t ++ [c]) :=
    strip_infix ⟨c, [], rfl, hc⟩ ⟨[], c, rfl, hc⟩ ⟨t, [], by simp⟩
  intro hnil
  rw [hnil] at hx
  simp at hx

theorem dropWhile_headNS :
    ∀ l : List Char, l.dropWhile isSpacePy ≠ [] → headNS (l.dropWhile isSpacePy)
  | [], h => absurd rfl h
  | a :: t, h => by
    by_cases ha : isSpacePy a
    · rw [List.dropWhile_cons, if_pos ha] at h ⊢
      exact dropWhile_headNS t h
    · rw [List.dropWhile_cons, if_neg ha] at h ⊢
      exact ⟨a, t, rfl, by simpa using ha⟩

theorem dropWhile_suffix' (p : Char → Bool) :
    ∀ l : List Char, ∃ w, l = w ++ l.dropWhile p
  | [] => ⟨[], rfl⟩
  | a :: t => by
    by_cases ha : p a
    · obtain ⟨w, hw⟩ := dropWhile_suffix' p t
      exact ⟨a :: w, by rw [List.dropWhile_cons, if_pos ha]; simpa using hw⟩
    · exact ⟨[], by rw [List.dropWhile_cons, if_neg ha]; rfl⟩

theorem goodPara_strip {s : List Char} (h : pyStrip s ≠ []) : goodPara (pyStrip s) := by
  have hB : ((s.dropWhile isSpacePy).reverse.dropWhile isSpacePy) ≠ [] := by
    intro hz
    apply h
    simp only [pyStrip, hz, List.reverse_nil]
  have hBh : headNS ((s.dropWhile isSpacePy).reverse.dropWhile isSpacePy) :=
    dropWhile_headNS _ hB
  constructor
  · -- head of the strip = head of s.dropWhile
    have hA : s.dropWhile isSpacePy ≠ [] := by
      intro hz
      apply hB
      rw [hz]
      rfl
    have hAh : headNS (s.dropWhile isSpacePy) := dropWhile_headNS s hA
    obtain ⟨c', t', hA', hc'⟩ := hAh
    obtain ⟨w, hw⟩ := dropWhile_suffix' isSpacePy (s.dropWhile isSpacePy).reverse
    -- s.dropWhile = (B.reverse) ++ w.reverse
    have hsplit : s.dropWhile isSpacePy =
        ((s.dropWhile isSpacePy).reverse.dropWhile isSpacePy).reverse ++ w.reverse := by
      have := congrArg List.reverse hw
      simpa [List.reverse_append] using this
    cases hBrev : ((s.dropWhile isSpacePy).reverse.dropWhile isSpacePy).reverse with
    | nil =>
      exact absurd (by simpa using congrArg List.reverse hBrev) hB
    | cons b bs =>
      refine ⟨b, bs, by simp [pyStrip, hBrev], ?_⟩
      rw [hsplit, hBrev] at hA'
      simp only [List.cons_append] at hA'
      rw [(List.cons.injEq _ _ _ _).mp hA' |>.1]
      exact hc'
  · obtain ⟨c, t, hBe, hc⟩ := hBh
    exact ⟨t.reverse, c, by simp [pyStrip, hBe], hc⟩

theorem paraList_good (pages : List (Nat × List Char)) :
    ∀ pp ∈ paraList pages, goodPara pp.2 := by
  intro pp hpp
  simp only [paraList, List.mem_flatMap, List.mem_filterMap] at hpp
  obtain ⟨pg, -, para, -, hmk⟩ := hpp
  by_cases he : (pyStrip para).isEmpty
  · rw [if_pos he] at hmk
    cases hmk
  · rw [if_neg he] at hmk
    cases hmk
    exact goodPara_strip (by simpa [List.isEmpty_iff] using he)

theorem paraList_fst_mem (pages : List (Nat × List Char)) :
    ∀ pp ∈ paraList pages, ∃ pg ∈ pages, pp.1 = pg.1 := by
  intro pp hpp
  simp only [paraList, List.mem_flatMap, List.mem_filterMap] at hpp
  obtain ⟨pg, hpg, para, -, hmk⟩ := hpp
  by_cases he : (pyStrip para).isEmpty
  · rw [if_pos he] at hmk
    cases hmk
  · rw [if_neg he] at hmk
    cases hmk
    exact ⟨pg, hpg, rfl⟩

theorem lastNS_glue2 {y : List Char} (h : lastNS y) (x : List Char) :
    lastNS (x ++ '\n' :: '\n' :: y) := by
  obtain ⟨t, c, rfl, hc⟩ := h
  exact ⟨x ++ '\n' :: '\n' :: t, c, by simp, hc⟩

theorem chunkStep_pos (cs ov : Nat) (st : ChunkSt) (pp : Nat × List Char)
    (h : (!st.cur.isEmpty) = true ∧ cs < st.cur.length + pp.2.length + 2) :
    chunkStep cs ov st pp =
      ⟨st.chunks ++ [⟨pyStrip st.cur, st.cps, st.cpe⟩],
        if 0 < ov ∧ ov < st.cur.length then
          st.cur.drop (st.cur.length - ov) ++ '\n' :: '\n' :: pp.2
        else pp.2,
        pp.1, pp.1⟩ := by
  simp only [chunkStep]
  rw [if_pos h]

theorem chunkStep_neg (cs ov : Nat) (st : ChunkSt) (pp : Nat × List Char)
    (h : ¬((!st.cur.isEmpty) = true ∧ cs < st.cur.length + pp.2.length + 2)) :
    chunkStep cs ov st pp =
      ⟨st.chunks, if st.cur.isEmpty then pp.2 else st.cur ++ '\n' :: '\n' :: pp.2,
        st.cps, pp.1⟩ := by
  simp only [chunkStep]
  rw [if_neg h]

theorem fold_chunks_prefix (cs ov : Nat) :
    ∀ (pl : List (Nat × List Char)) (st : ChunkSt),
      ∃ tl, (pl.foldl (chunkStep cs ov) st).chunks = st.chunks ++ tl
  | [], st => ⟨[], by simp⟩
  | pp :: pl, st => by
    obtain ⟨tl, htl⟩ := fold_chunks_prefix cs ov pl (chunkStep cs ov st pp)
    rw [List.foldl_cons]
    by_cases h : (!st.cur.isEmpty) = true ∧ cs < st.cur.length + pp.2.length + 2
    · rw [chunkStep_pos cs ov st pp h] at htl ⊢
      exact ⟨⟨pyStrip st.cur, st.cps, st.cpe⟩ :: tl, by rw [htl]; simp⟩
    · rw [chunkStep_neg cs ov st pp h] at htl ⊢
      exact ⟨tl, htl⟩

theorem mem_fold_finalize (cs ov : Nat) (pl : List (Nat × List Char)) (st : ChunkSt)
    {c : Chunk} (hc : c ∈ st.chunks) :
    c ∈ finalizeChunks (pl.foldl (chunkStep cs ov) st) := by
  obtain ⟨tl, htl⟩ := fold_chunks_prefix cs ov pl st
  unfold finalizeChunks
  by_cases h : (!(pyStrip (pl.foldl (chunkStep cs ov) st).cur).isEmpty) = true
  · rw [if_pos h, htl]
    exact List.mem_append_left _ (List.mem_append_left _ hc)
  · rw [if_neg h, htl]
    exact List.mem_append_left _ hc

theorem chunkStep_cur (cs ov : Nat) (st : ChunkSt) (pp : Nat × List Char) :
    (chunkStep cs ov st pp).cur = pp.2 ∨
    ∃ pre, (chunkStep cs ov st pp).cur = pre ++ '\n' :: '\n' :: pp.2 := by
  by_cases h : (!st.cur.isEmpty) = true ∧ cs < st.cur.length + pp.2.length + 2
  · rw [chunkStep_pos cs ov st pp h]
    by_cases hov : 0 < ov ∧ ov < st.cur.length
    · rw [if_pos hov]
      exact Or.inr ⟨st.cur.drop (st.cur.length - ov), rfl⟩
    · rw [if_neg hov]
      exact Or.inl rfl
  · rw [chunkStep_neg cs ov st pp h]
    by_cases hemp : st.cur.isEmpty = true
    · rw [if_pos hemp]
      exact Or.inl rfl
    · rw [if_neg hemp]
      exact Or.inr ⟨st.cur, rfl⟩

theorem chunkStep_cur_suffix (cs ov : Nat) (st : ChunkSt) (pp : Nat × List Char)
    (hg : goodPara pp.2) :
    pp.2 <:+: (chunkStep cs ov st pp).cur ∧ lastNS (chunkStep cs ov st pp).cur := by
  rcases chunkStep_cur cs ov st pp with h | ⟨pre, h⟩
  · rw [h]
    exact ⟨List.infix_refl _, hg.2⟩
  · rw [h]
    refine ⟨⟨pre ++ ['\n', '\n'], [], by simp⟩, lastNS_glue2 hg.2 pre⟩

theorem chunkContentInv (cs ov : Nat) :
    ∀ (pl : List (Nat × List Char)) (st : ChunkSt),
      (∀ c ∈ st.chunks, c.content ≠ []) →
      (st.cur = [] ∨ lastNS st.cur) →
      (∀ pp ∈ pl, goodPara pp.2) →
      ∀ c ∈ finalizeChunks (pl.foldl (chunkStep cs ov) st), c.content ≠ []
  | [], st, hch, _, _ => by
    intro c hc
    simp only [List.foldl_nil] at hc
    unfold finalizeChunks at hc
    by_cases hne : (!(pyStrip st.cur).isEmpty) = true
    · rw [if_pos hne] at hc
      rcases List.mem_append.mp hc with h | h
      · exact hch c h
      · rw [List.mem_singleton] at h
        subst h
        simpa [List.isEmpty_iff] using hne
    · rw [if_neg hne] at hc
      exact hch c hc
  | pp :: pl, st, hch, hcur, hgood => by
    intro c hc
    rw [List.foldl_cons] at hc
    have hppg : goodPara pp.2 := hgood pp (List.mem_cons_self _ _)
    have hlast : lastNS (chunkStep cs ov st pp).cur := (chunkStep_cur_suffix cs ov st pp hppg).2
    by_cases h : (!st.cur.isEmpty) = true ∧ cs < st.cur.length + pp.2.length + 2
    · refine chunkContentInv cs ov pl _ ?_ (Or.inr hlast)
        (fun q hq => hgood q (List.mem_cons_of_mem _ hq)) c hc
      rw [chunkStep_pos cs ov st pp h]
      intro c' hc'
      rcases List.mem_append.mp hc' with h' | h'
      · exact hch c' h'
      · rw [List.mem_singleton] at h'
        subst h'
        rcases hcur with hnil | hlNS
        · rw [hnil] at h
          simp at h
        · exact strip_ne_nil hlNS
    · refine chunkContentInv cs ov pl _ ?_ (Or.inr hlast)
        (fun q hq => hgood q (List.mem_cons_of_mem _ hq)) c hc
      rw [chunkStep_neg cs ov st pp h]
      exact hch

theorem chunkPagesInv (cs ov : Nat) :
    ∀ (pl : List (Nat × List Char)) (st : ChunkSt),
      (∀ c ∈ st.chunks, c.page_start ≤ c.page_end) →
      st.cps ≤ st.cpe →
      (∀ pp ∈ pl, st.cpe ≤ pp.1) →
      ((pl.map Prod.fst).Pairwise (· ≤ ·)) →
      ∀ c ∈ finalizeChunks (pl.foldl (chunkStep cs ov) st), c.page_start ≤ c.page_end
  | [], st, hch, hse, _, _ => by
    intro c hc
    simp only [List.foldl_nil] at hc
    unfold finalizeChunks at hc
    by_cases hne : (!(pyStrip st.cur).isEmpty) = true
    · rw [if_pos hne] at hc
      rcases List.mem_append.mp hc with h | h
      · exact hch c h
      · rw [List.mem_singleton] at h
        subst h
        exact hse
    · rw [if_neg hne] at hc
      exact hch c hc
  | pp :: pl, st, hch, hse, hup, hpw => by
    intro c hc
    rw [List.foldl_cons] at hc
    rw [List.map_cons, List.pairwise_cons] at hpw
    obtain ⟨hhd, hpw'⟩ := hpw
    have hupc : st.cpe ≤ pp.1 := hup pp (List.mem_cons_self _ _)
    by_cases h : (!st.cur.isEmpty) = true ∧ cs < st.cur.length + pp.2.length + 2
    · rw [chunkStep_pos cs ov st pp h] at hc
      refine chunkPagesInv cs ov pl _ ?_ le_rfl ?_ hpw' c hc
      · intro c' hc'
        rcases List.mem_append.mp hc' with h' | h'
        · exact hch c' h'
        · rw [List.mem_singleton] at h'
          subst h'
          exact hse
      · intro q hq
        exact hhd q.1 (List.mem_map_of_mem _ hq)
    · rw [chunkStep_neg cs ov st pp h] at hc
      refine chunkPagesInv cs ov pl
        ⟨st.chunks, if st.cur.isEmpty then pp.2 else st.cur ++ '\n' :: '\n' :: pp.2,
          st.cps, pp.1⟩ hch (le_trans hse hupc) ?_ hpw' c hc
      intro q hq
      exact hhd q.1 (List.mem_map_of_mem _ hq)

theorem chunkContainInv (cs ov : Nat) :
    ∀ (pl : List (Nat × List Char)) (st : ChunkSt) (x : List Char),
      headNS x → lastNS x → x <:+: st.cur → lastNS st.cur →
      (∀ pp ∈ pl, goodPara pp.2) →
      ∃ c ∈ finalizeChunks (pl.foldl (chunkStep cs ov) st), x <:+: c.content
  | [], st, x, hh, hl, hi, hcur, _ => by
    have hne : pyStrip st.cur ≠ [] := strip_ne_nil hcur
    refine ⟨⟨pyStrip st.cur, st.cps, st.cpe⟩, ?_, strip_infix hh hl hi⟩
    simp only [List.foldl_nil]
    unfold finalizeChunks
    rw [if_pos (by simpa [List.isEmpty_iff] using hne)]
    exact List.mem_append_right _ (List.mem_singleton.mpr rfl)
  | pp :: pl, st, x, hh, hl, hi, hcur, hgood => by
    have hppg : goodPara pp.2 := hgood pp (List.mem_cons_self _ _)
    rw [List.foldl_cons]
    by_cases h : (!st.cur.isEmpty) = true ∧ cs < st.cur.length + pp.2.length + 2
    · rw [chunkStep_pos cs ov st pp h]
      refine ⟨⟨pyStrip st.cur, st.cps, st.cpe⟩,
        mem_fold_finalize cs ov pl _ ?_, strip_infix hh hl hi⟩
      exact List.mem_append_right _ (List.mem_singleton.mpr rfl)
    · rw [chunkStep_neg cs ov st pp h]
      have hcne : ¬st.cur.isEmpty = true := by
        obtain ⟨u, v, huv⟩ := hi
        intro habs
        rw [List.isEmpty_iff] at habs
        rw [habs] at huv
        have := headNS_ne_nil hh
        simp at huv
        exact this huv.2.1
      rw [if_neg hcne]
      refine chunkContainInv cs ov pl _ x hh hl ?_ (lastNS_glue2 hppg.2 st.cur)
        (fun q hq => hgood q (List.mem_cons_of_mem _ hq))
      obtain ⟨u, v, huv⟩ := hi
      exact ⟨u, v ++ '\n' :: '\n' :: pp.2, by rw [← huv]; simp [List.append_assoc]⟩

theorem chunkContainAll (cs ov : Nat) :
    ∀ (pl : List (Nat × List Char)) (st : ChunkSt),
      (∀ pp ∈ pl, goodPara pp.2) →
      ∀ pp ∈ pl, ∃ c ∈ finalizeChunks (pl.foldl (chunkStep cs ov) st), pp.2 <:+: c.content
  | [], _, _ => by
    intro pp hpp
    cases hpp
  | pp0 :: pl, st, hgood => by
    intro pp hpp
    have hg0 : goodPara pp0.2 := hgood pp0 (List.mem_cons_self _ _)
    obtain ⟨hsuf, hlast⟩ := chunkStep_cur_suffix cs ov st pp0 hg0
    rw [List.foldl_cons]
    rcases List.mem_cons.mp hpp with heq | hmem
    · subst heq
      exact chunkContainInv cs ov pl _ pp.2 hg0.1 hg0.2 hsuf hlast
        (fun q hq => hgood q (List.mem_cons_of_mem _ hq))
    · exact chunkContainAll cs ov pl _
        (fun q hq => hgood q (List.mem_cons_of_mem _ hq)) pp hmem

theorem pairwise_le_const {l : List Nat} {k : Nat} (h : ∀ a ∈ l, a = k) :
    l.Pairwise (· ≤ ·) := by
  induction l with
  | nil => exact List.Pairwise.nil
  | cons a t ih =>
    refine List.Pairwise.cons ?_ (ih fun b hb => h b (List.mem_cons_of_mem _ hb))
    intro b hb
    rw [h a (List.mem_cons_self _ _), h b (List.mem_cons_of_mem _ hb)]

theorem paraList_fst_pairwise :
    ∀ pages : List (Nat × List Char),
      (pages.map Prod.fst).Pairwise (· ≤ ·) →
      ((paraList pages).map Prod.fst).Pairwise (· ≤ ·)
  | [], _ => by simp [paraList]
  | pg :: pages, h => by
    rw [List.map_cons, List.pairwise_cons] at h
    obtain ⟨hhd, htl⟩ := h
    have ih := paraList_fst_pairwise pages htl
    have hsplit : paraList (pg :: pages) =
        ((splitParas pg.2 []).filterMap (fun para =>
          let p := pyStrip para
          if p.isEmpty then none else some (pg.1, p))) ++ paraList pages := by
      simp [paraList]
    rw [hsplit, List.map_append, List.pairwise_append]
    refine ⟨?_, ih, ?_⟩
    · refine pairwise_le_const (k := pg.1) ?_
      intro a ha
      simp only [List.mem_map, List.mem_filterMap] at ha
      obtain ⟨q, ⟨para, hpara, hq⟩, rfl⟩ := ha
      by_cases he : (pyStrip para).isEmpty
      · rw [if_pos he] at hq
        cases hq
      · rw [if_neg he] at hq
        cases hq
        rfl
    · intro a ha b hb
      simp only [List.mem_map, List.mem_filterMap] at ha
      obtain ⟨q, ⟨para, hpara, hq⟩, rfl⟩ := ha
      have haeq : q.1 = pg.1 := by
        by_cases he : (pyStrip para).isEmpty
        · rw [if_pos he] at hq
          cases hq
        · rw [if_neg he] at hq
          cases hq
          rfl
      simp only [List.mem_map] at hb
      obtain ⟨q', hq', rfl⟩ := hb
      obtain ⟨pg', hpg', heq'⟩ := paraList_fst_mem pages q' hq'
      rw [haeq, heq']
      exact hhd pg'.1 (List.mem_map_of_mem _ hpg')

theorem chunk_pages_nil {pages : List (Nat × List Char)} (cs ov : Nat)
    (h : paraList pages = []) : chunk_pages pages cs ov = [] := by
  simp only [chunk_pages]
  rw [h]

theorem chunk_pages_cons {pages : List (Nat × List Char)} (cs ov : Nat)
    {p0 : Nat × List Char} {rest : List (Nat × List Char)}
    (h : paraList pages = p0 :: rest) :
    chunk_pages pages cs ov =
      finalizeChunks ((p0 :: rest).foldl (chunkStep cs ov) ⟨[], [], p0.1, p0.1⟩) := by
  simp only [chunk_pages]
  rw [h]
  rfl

/-- C7 counterexample: with pages listed out of ascending page order, a
chunk can violate `page_start <= page_end`: two one-letter pages given as
page 5 then page 1 produce the single chunk ("a\n\nb", 5, 1). -/
theorem C7_chunk_pages_counterexample :
    chunk_pages [(5, "a".toList), (1, "b".toList)] 1500 200 =
      [⟨"a\n\nb".toList, 5, 1⟩] ∧ ¬(5 ≤ 1) := by
  exact ⟨by decide, by decide⟩

/-- C7 amended: an empty flattened paragraph list yields no chunks; every
chunk has non-empty content; when the pages are supplied in ascending page
order every chunk satisfies `page_start <= page_end`; and every stripped
paragraph appears contiguously inside some chunk's content (an oversized
paragraph is emitted whole). -/
theorem C7_chunk_pages_amended :
    (∀ (pages : List (Nat × List Char)) (cs ov : Nat),
      paraList pages = [] → chunk_pages pages cs ov = []) ∧
    (∀ (pages : List (Nat × List Char)) (cs ov : Nat),
      ∀ c ∈ chunk_pages pages cs ov, c.content ≠ []) ∧
    (∀ (pages : List (Nat × List Char)) (cs ov : Nat),
      (pages.map Prod.fst).Pairwise (· ≤ ·) →
      ∀ c ∈ chunk_pages pages cs ov, c.page_start ≤ c.page_end) ∧
    (∀ (pages : List (Nat × List Char)) (cs ov : Nat),
      ∀ pp ∈ paraList pages, ∃ c ∈ chunk_pages pages cs ov, pp.2 <:+: c.content) := by
  refine ⟨fun pages cs ov h => chunk_pages_nil cs ov h, ?_, ?_, ?_⟩
  · intro pages cs ov c hc
    cases h : paraList pages with
    | nil =>
      rw [chunk_pages_nil cs ov h] at hc
      cases hc
    | cons p0 rest =>
      rw [chunk_pages_cons cs ov h] at hc
      refine chunkContentInv cs ov (p0 :: rest) ⟨[], [], p0.1, p0.1⟩
        (by intro c' hc'; cases hc') (Or.inl rfl) ?_ c hc
      intro pp hpp
      refine paraList_good pages pp ?_
      rw [h]
      exact hpp
  · intro pages cs ov hpw c hc
    cases h : paraList pages with
    | nil =>
      rw [chunk_pages_nil cs ov h] at hc
      cases hc
    | cons p0 rest =>
      rw [chunk_pages_cons cs ov h] at hc
      have hplw : ((p0 :: rest).map Prod.fst).Pairwise (· ≤ ·) := by
        rw [← h]
        exact paraList_fst_pairwise pages hpw
      refine chunkPagesInv cs ov (p0 :: rest) ⟨[], [], p0.1, p0.1⟩
        (by intro c' hc'; cases hc') le_rfl ?_ hplw c hc
      intro q hq
      rw [List.map_cons, List.pairwise_cons] at hplw
      rcases List.mem_cons.mp hq with heq | hmem
      · rw [heq]
      · exact hplw.1 q.1 (List.mem_map_of_mem _ hmem)
  · intro pages cs ov pp hpp
    cases h : paraList pages with
    | nil =>
      rw [h] at hpp
      cases hpp
    | cons p0 rest =>
      rw [chunk_pages_cons cs ov h]
      rw [h] at hpp
      refine chunkContainAll cs ov (p0 :: rest) ⟨[], [], p0.1, p0.1⟩ ?_ pp hpp
      intro q hq
      refine paraList_good pages q ?_
      rw [h]
      exact hq

/-- Witness for C7's amended theorem: the three conditional clauses at
concrete inputs — whitespace-only pages give no chunks, a two-page input
in ascending order has its chunk's pages ordered, and a concrete
paragraph is contained in a chunk. -/
theorem C7_chunk_pages_amended_witness :
    chunk_pages [(3, "   ".toList)] 10 2 = [] ∧
    (⟨"x\n\ny".toList, 1, 2⟩ : Chunk).page_start ≤
      (⟨"x\n\ny".toList, 1, 2⟩ : Chunk).page_end ∧
    (∃ c ∈ chunk_pages [(1, "x".toList), (2, "y".toList)] 5 1,
      "x".toList <:+: c.content) :=
  ⟨C7_chunk_pages_amended.1 [(3, "   ".toList)] 10 2 (by decide),
   C7_chunk_pages_amended.2.2.1 [(1, "x".toList), (2, "y".toList)] 5 1 (by decide)
     ⟨"x\n\ny".toList, 1, 2⟩ (by decide),
   C7_chunk_pages_amended.2.2.2 [(1, "x".toList), (2, "y".toList)] 5 1
     (1, "x".toList) (by decide)⟩

/-- The merge loop as the claim words it: the word-count and punctuation
tests are applied to the ACCUMULATING merged line `cur`. -/
def mergeLoopClaim (cur : List Char) : List (List Char) → List Char × List (List Char)
  | [] => (cur, [])
  | nl :: t =>
    let next := pyStrip nl
    if next.isEmpty then (cur, nl :: t)
    else if ((pySplit cur).length ≤ 3 || (pySplit next).length ≤ 3)
        && !endsPunct cur then
      mergeLoopClaim (cur ++ ' ' :: next) t
    else (cur, nl :: t)

/-- The claim-side line-reconstruction loop built on `mergeLoopClaim`. -/
def cleanLoopClaimGo : Nat → List (List Char) → Bool → List (List Char)
  | 0, _, _ => []
  | fuel + 1, lines, lastNonBlank =>
    match lines with
    | [] => []
    | l :: t =>
      let line := pyStrip l
      if line.isEmpty then
        (if lastNonBlank then [] :: cleanLoopClaimGo fuel t false
         else cleanLoopClaimGo fuel t false)
      else
        collapseSpaces (mergeLoopClaim line t).1 ::
          cleanLoopClaimGo fuel (mergeLoopClaim line t).2 true

/-- `clean_text` with the merge loop as the claim words it. -/
def clean_text_claim (text : List Char) : List Char :=
  let lines := splitlinesPy text
  let cleaned := cleanLoopClaimGo lines.length lines false
  let t := joinSep ['\n'] cleaned
  let t := dehyphen t
  let t := collapseNewlines t
  pyStrip t

/-- The merge loop in the claim's accumulating style but with the tests
the code actually performs: word count and punctuation are read from the
most recently consumed SOURCE line `lastRaw` (`lines[i]`), not from the
accumulation `acc`. -/
def mergeLoopFix (acc lastRaw : List Char) : List (List Char) → List Char × List (List Char)
  | [] => (acc, [])
  | nl :: t =>
    let next := pyStrip nl
    if next.isEmpty then (acc, nl :: t)
    else if ((pySplit (pyStrip lastRaw)).length ≤ 3 || (pySplit next).length ≤ 3)
        && !endsPunct (pyStrip lastRaw) then
      mergeLoopFix (acc ++ ' ' :: next) nl t
    else (acc, nl :: t)

theorem foldl_join_shift :
    ∀ (ys : List (List Char)) (a y : List Char),
      ys.foldl (fun b x => b ++ ' ' :: x) (a ++ ' ' :: y) =
        a ++ ' ' :: ys.foldl (fun b x => b ++ ' ' :: x) y := by
  intro ys
  induction ys with
  | nil => intro a y; rfl
  | cons z zs ih =>
    intro a y
    rw [List.foldl_cons, List.foldl_cons]
    rw [show (a ++ ' ' :: y) ++ ' ' :: z = a ++ ' ' :: (y ++ ' ' :: z) from by simp]
    exact ih a (y ++ ' ' :: z)

theorem joinSpace_foldl :
    ∀ (xs : List (List Char)) (x : List Char),
      joinSpace (x :: xs) = xs.foldl (fun a y => a ++ ' ' :: y) x := by
  intro xs
  induction xs with
  | nil => intro x; rfl
  | cons y ys ih =>
    intro x
    show x ++ ' ' :: joinSpace (y :: ys) = _
    rw [ih y, List.foldl_cons, foldl_join_shift]

theorem mergeLoopFix_eq :
    ∀ (t : List (List Char)) (acc cur : List Char),
      mergeLoopFix acc cur t =
        ((mergeLoop cur t).1.foldl (fun a x => a ++ ' ' :: x) acc, (mergeLoop cur t).2)
  | [], acc, cur => rfl
  | nl :: t, acc, cur => by
    simp only [mergeLoopFix, mergeLoop]
    by_cases he : (pyStrip nl).isEmpty = true
    · rw [if_pos he, if_pos he]
      rfl
    · rw [if_neg he, if_neg he]
      by_cases hc : (((pySplit (pyStrip cur)).length ≤ 3 || (pySplit (pyStrip nl)).length ≤ 3)
          && !endsPunct (pyStrip cur)) = true
      · rw [if_pos hc, if_pos hc]
        rw [mergeLoopFix_eq t (acc ++ ' ' :: pyStrip nl) nl]
        rw [List.foldl_cons]
      · rw [if_neg hc, if_neg hc]
        rfl

/-- C8 counterexample: the merge condition reads the word count and
punctuation from the raw source line `lines[i]`, not from the
accumulating merged line.  On "aa bb cc\ndd\nee ff gg hh\nii jj kk ll"
the code keeps merging once the accumulation already has 4 words (because
`lines[i]` is the short "dd"), while the claim's accumulating reading
stops. -/
theorem C8_merge_counterexample :
    clean_text "aa bb cc\ndd\nee ff gg hh\nii jj kk ll".toList =
      "aa bb cc dd ee ff gg hh\nii jj kk ll".toList ∧
    clean_text_claim "aa bb cc\ndd\nee ff gg hh\nii jj kk ll".toList =
      "aa bb cc dd\nee ff gg hh\nii jj kk ll".toList ∧
    clean_text "aa bb cc\ndd\nee ff gg hh\nii jj kk ll".toList ≠
      clean_text_claim "aa bb cc\ndd\nee ff gg hh\nii jj kk ll".toList := by
  refine ⟨by decide, by decide, ?_⟩
  rw [show clean_text "aa bb cc\ndd\nee ff gg hh\nii jj kk ll".toList =
    "aa bb cc dd ee ff gg hh\nii jj kk ll".toList from by decide]
  rw [show clean_text_claim "aa bb cc\ndd\nee ff gg hh\nii jj kk ll".toList =
    "aa bb cc dd\nee ff gg hh\nii jj kk ll".toList from by decide]
  decide

/-- C8 amended: the merge loop accumulates the stripped continuation
lines joined by single spaces, but its stopping tests read the most
recently consumed source line (`lines[i]`): the accumulating-style loop
with that condition (`mergeLoopFix`) computes exactly the code's merged
line and remainder; the word-per-line fragment
["Dit", "is", "een", "test", "zin."] still collapses to the single line
"Dit is een test zin.". -/
theorem C8_merge_amended :
    (∀ (l : List Char) (t : List (List Char)),
      mergeLoopFix (pyStrip l) l t =
        (joinSpace (pyStrip l :: (mergeLoop l t).1), (mergeLoop l t).2)) ∧
    clean_text "Dit\nis\neen\ntest\nzin.".toList = "Dit is een test zin.".toList ∧
    clean_text_claim "Dit\nis\neen\ntest\nzin.".toList = "Dit is een test zin.".toList := by
  refine ⟨?_, by decide, by decide⟩
  intro l t
  rw [mergeLoopFix_eq t (pyStrip l) l, joinSpace_foldl]

/-- C10 counterexample: a whitespace-only label does NOT always fall
through to the substring tier.  The label lowercases to the empty string,
which tier 1 matches against an empty party ABBREVIATION: with a second
party whose abbreviation is empty, the result is that party's id, not the
first party's. -/
theorem C10_empty_label_counterexample :
    match_party "  ".toList
      [⟨1, "AA".toList, "X".toList⟩, ⟨2, "BB".toList, "".toList⟩] = some 2 ∧
    (2 : Int) ≠ 1 ∧
    tierExact (pyLower (pyStrip "  ".toList))
      [⟨1, "AA".toList, "X".toList⟩, ⟨2, "BB".toList, "".toList⟩] = some 2 := by
  exact ⟨by decide, by decide, by decide⟩

/-- C10 amended: when every party has a non-empty name AND a non-empty
abbreviation, a label that strips to the empty string misses the exact
and alias tiers and is matched by the substring tier's
`lower in party.name.lower()` test for the FIRST party, whose id is
returned. -/
theorem C10_empty_label_amended :
    ∀ (raw : List Char) (p0 : Party) (tl : List Party),
      (∀ p ∈ p0 :: tl, p.name ≠ [] ∧ p.abbreviation ≠ []) →
      pyStrip raw = [] →
      match_party raw (p0 :: tl) = some p0.id := by
  intro raw p0 tl hne hstrip
  have hlower : pyLower (pyStrip raw) = [] := by rw [hstrip]; rfl
  rw [match_party_tiers, hlower]
  have hexact : tierExact [] (p0 :: tl) = none := by
    unfold tierExact
    have hfind : (p0 :: tl).find? (fun p =>
        decide ([] = pyLower p.name ∨ [] = pyLower p.abbreviation)) = none := by
      rw [List.find?_eq_none]
      intro p hp
      simp only [decide_eq_true_eq]
      push_neg
      obtain ⟨hn, ha⟩ := hne p hp
      constructor
      · intro h
        exact hn (by simpa [pyLower] using h.symm)
      · intro h
        exact ha (by simpa [pyLower] using h.symm)
    rw [hfind]
    rfl
  have halias : tierAlias [] (p0 :: tl) = none := by
    unfold tierAlias
    rw [show aliasLookup [] = none from by decide]
    rfl
  have hsub : tierSub [] (p0 :: tl) = some p0.id := by
    unfold tierSub
    have hp0 : (fun p : Party =>
        decide (pyLower p.name <:+: [] ∨ [] <:+: pyLower p.name ∨
          pyLower p.abbreviation <:+: [] ∨ [] <:+: pyLower p.abbreviation)) p0 = true := by
      simp only [decide_eq_true_eq]
      exact Or.inr (Or.inl List.nil_infix)
    rw [List.find?_cons_of_pos tl hp0]
    rfl
  rw [hexact, halias, hsub]
  rfl

/-- Witness for C10's amended theorem: a single-space label against a
registry with non-empty names and abbreviations yields the first id. -/
theorem C10_empty_label_amended_witness :
    match_party " ".toList [⟨9, "GroenLinks".toList, "GL".toList⟩] = some 9 :=
  C10_empty_label_amended " ".toList ⟨9, "GroenLinks".toList, "GL".toList⟩ []
    (by decide) (by decide)

end VV
